import Mathlib

set_option autoImplicit false
set_option linter.unusedSectionVars false

/-!
# Pathfinder: shortest paths and minimum spanning trees

A shallow embedding of the graph engine of `pathfinder.cpp` and `path.cpp`:
the `Path` class, `findShortestPath` (best-first search over partial paths)
and the Kruskal loop of `kruskalAction`, followed by the proofs of the
properties stated for them.

Conventions of the embedding.

* A `Node *` is identified with the node's unique name, so pointer equality of
  nodes is equality of `Node` values.
* An `Arc *` is one entry of an arc list: two entries with the same contents
  stand for two distinct arcs (parallel arcs of equal cost).
* Arc costs are values of a linearly ordered commutative group `K`, whose order
  and zero are those of the machine numbers. The addition that `Path::add`
  performs on the `double` field `costs` is a parameter `fadd` of the model: it
  need not be the exact addition of `K`. `doubleAdd` is the addition of IEEE
  binary64 numbers on integer values, which rounds beyond 53 bits.
* `kruskalAction` only compares costs, so no addition occurs in its model.
-/

namespace Pathfinder

/-! ## Data model -/

/-- Modelled from the spec: the `Node` type of `graphtypes.h`, which is not part of the
sources. A node is identified by its unique `name`; its location is opaque data that no
algorithm reads, and its outgoing arcs are read off the graph (see `Node.arcs`). -/
structure Node where
  name : String
deriving DecidableEq

/-- Modelled from the spec: the `Arc` type of `graphtypes.h`, which is not part of the
sources: a directed edge with a `start` node, a `finish` node and a `cost`. -/
structure Arc (K : Type) where
  start : Node
  finish : Node
  cost : K
deriving DecidableEq

/-- Modelled from the spec: the `PathfinderGraph` of `pathfinder-graph.h`, which is not part
of the sources, reduced to what the algorithms read: `getNodeSet()` and `getArcSet()`, each
listed in iteration order. -/
structure Graph (K : Type) where
  nodes : List Node
  arcs : List (Arc K)

/-- The class `Path` of `path.h`: the arc vector, the set of visited nodes and the
running cost. -/
structure Path (K : Type) where
  arcs : List (Arc K)
  nodes : Finset Node
  costs : K

/-- Modelled from the spec: the `PriorityQueue` of `pqueue.h`, which is not part of the
sources: the entries still queued, each with the priority it was enqueued with, in order
of insertion. -/
abbrev PriorityQueue (α K : Type) := List (α × K)

/-- Modelled from the spec: a `dequeue` operation of the priority queue: it yields the value
removed and the remaining queue, or nothing when the queue cannot be dequeued. Which entry
is removed is the business of the queue; see `MinDequeue`. -/
abbrev Dequeue (α K : Type) := PriorityQueue α K → Option (α × PriorityQueue α K)

/-- The local state of the loop of `findShortestPath`: the variables `start`, `path`,
`queue` and `fixed` (a map from node names to costs, kept as an association list). -/
structure SPState (K : Type) where
  start : Node
  path : Path K
  queue : PriorityQueue (Path K) K
  fixed : List (String × K)

/-- The local state of the Kruskal loop of `kruskalAction`: the variables `queue`,
`connectedNodeSet` and `minSpanTree`. -/
structure KruskalState (K : Type) where
  queue : PriorityQueue (Arc K) K
  connectedNodeSet : List (Finset Node)
  minSpanTree : List (Arc K)

section Model

variable {K : Type} [LinearOrderedAddCommGroup K]

/-! ## The priority queue -/

/-- `queue.enqueue(value, priority)`. -/
def PriorityQueue.enqueue {α : Type} (q : PriorityQueue α K) (value : α) (priority : K) :
    PriorityQueue α K :=
  q ++ [(value, priority)]

/-- The assumption made on the priority queue: dequeuing a non-empty queue removes exactly
one entry, and that entry has the least priority value of all entries. Ties may be broken in
any way. -/
def MinDequeue {α : Type} (deq : Dequeue α K) : Prop :=
  ∀ q : PriorityQueue α K, q ≠ [] →
    ∃ x rest, deq q = some (x.1, rest) ∧ List.Perm (x :: rest) q ∧ ∀ y ∈ q, x.2 ≤ y.2

/-- One concrete priority queue: the entry removed is the first one, in order of insertion,
among those of least priority. -/
def dequeueMin {α : Type} : PriorityQueue α K → Option ((α × K) × PriorityQueue α K)
  | [] => none
  | x :: q =>
    match dequeueMin q with
    | none => some (x, [])
    | some (y, rest) => if x.2 ≤ y.2 then some (x, q) else some (y, x :: rest)

/-- The `dequeue` of the concrete queue `dequeueMin`. -/
def dequeueFifo {α : Type} : Dequeue α K :=
  fun q => (dequeueMin q).map (fun r => (r.1.1, r.2))

/-! ## The addition of costs -/

/-- The exact addition of `K`: what `costs += arc->cost` computes when no rounding occurs. -/
def exactAdd : K → K → K := fun a b => a + b

/-! ## The class `Path` (`path.cpp`) -/

/-- The constructor `Path::Path()`. -/
def Path.empty : Path K := ⟨[], ∅, 0⟩

/-- The method `Path::add`. The statement `costs += arc->cost` adds two `double` values:
`fadd` is that addition. -/
def Path.add (fadd : K → K → K) (p : Path K) (arc : Arc K) : Path K :=
  let nodes := if p.costs = 0 then insert arc.start p.nodes else p.nodes
  { arcs := p.arcs ++ [arc], nodes := insert arc.finish nodes, costs := fadd p.costs arc.cost }

/-- The method `Path::totalCost`. -/
def Path.totalCost (p : Path K) : K := p.costs

/-- The method `Path::size`. -/
def Path.size (p : Path K) : Nat := p.arcs.length

/-- The method `Path::getArc`; an index out of range is an error. -/
def Path.getArc (p : Path K) (index : Nat) : Option (Arc K) := p.arcs[index]?

/-- The method `Path::getNodes`. -/
def Path.getNodes (p : Path K) : Finset Node := p.nodes

/-! ## `findShortestPath` (`pathfinder.cpp`) -/

/-- The field `arcs` of a node: the arcs of the graph that start at the node, as
`dataInput` fills it. -/
def Node.arcs (g : Graph K) (n : Node) : List (Arc K) :=
  g.arcs.filter (fun a => a.start = n)

/-- The test `fixed.containsKey(name)`. -/
def containsKey (fixed : List (String × K)) (name : String) : Bool :=
  decide (name ∈ fixed.map Prod.fst)

/-- The `if(!fixed.containsKey(start->name))` block of the loop body: the node is fixed at
the cost of the current path, and the path extended by each arc towards a node that is not
fixed is enqueued. -/
def relax (fadd : K → K → K) (g : Graph K) (st : SPState K) : SPState K :=
  if containsKey st.fixed st.start.name then st
  else
    let fixed := (st.start.name, st.path.totalCost) :: st.fixed
    let queue := (Node.arcs g st.start).foldl
      (fun q arc =>
        if containsKey fixed arc.finish.name then q
        else PriorityQueue.enqueue q (Path.add fadd st.path arc)
          (Path.add fadd st.path arc).totalCost)
      st.queue
    { st with fixed := fixed, queue := queue }

/-- The `while(start != finish)` loop of `findShortestPath`, with a bound on the number of
iterations: `none` is returned when the bound is exceeded or when an operation fails
(dequeuing or indexing out of range). -/
def findShortestPathLoop (fadd : K → K → K) (g : Graph K) (deq : Dequeue (Path K) K)
    (finish : Node) : Nat → SPState K → Option (Path K)
  | fuel, st =>
    if st.start = finish then some st.path
    else
      match fuel with
      | 0 => none
      | fuel + 1 =>
        let st1 := relax fadd g st
        if st1.queue.isEmpty then some st1.path
        else
          match deq st1.queue with
          | none => none
          | some (path, queue) =>
            match path.getArc (path.size - 1) with
            | none => none
            | some arc =>
              findShortestPathLoop fadd g deq finish fuel
                { st1 with start := arc.finish, path := path, queue := queue }

/-- The function `findShortestPath`. The loop is run for at most one iteration more than
there are arcs, which is always enough: every iteration but the last one dequeues a path,
and no more paths are enqueued than there are arcs. -/
def findShortestPath (fadd : K → K → K) (g : Graph K) (deq : Dequeue (Path K) K)
    (start finish : Node) : Option (Path K) :=
  findShortestPathLoop fadd g deq finish (g.arcs.length + 1)
    { start := start, path := Path.empty, queue := [], fixed := [] }

/-! ## The Kruskal loop of `kruskalAction` (`pathfinder.cpp`) -/

/-- The two `foreach` loops that fill `queue` and `connectedNodeSet`. -/
def kruskalInit (g : Graph K) : KruskalState K :=
  { queue := g.arcs.foldl (fun q arc => PriorityQueue.enqueue q arc arc.cost) []
    connectedNodeSet := g.nodes.foldl (fun sets node => sets ++ [{node}]) []
    minSpanTree := [] }

/-- The inner `foreach` of the loop body: the scan that yields `index1` and `index2`. -/
def findIndices (connectedNodeSet : List (Finset Node)) (arc : Arc K) : Nat × Nat :=
  let r := connectedNodeSet.foldl
    (fun (acc : Nat × Nat × Nat) nodes =>
      let index1 := if arc.start ∈ nodes then acc.1 else acc.2.1
      let index2 := if arc.finish ∈ nodes then acc.1 else acc.2.2
      (acc.1 + 1, index1, index2))
    (0, 0, 0)
  (r.2.1, r.2.2)

/-- The body of the Kruskal loop once `arc` has been dequeued. The two vector accesses are
in range whenever `index1` and `index2` differ. -/
def kruskalStep (st : KruskalState K) (arc : Arc K) : KruskalState K :=
  let idx := findIndices st.connectedNodeSet arc
  if idx.1 ≠ idx.2 then
    let merged := st.connectedNodeSet.getD idx.1 ∅ ∪ st.connectedNodeSet.getD idx.2 ∅
    { st with
      connectedNodeSet := (st.connectedNodeSet.set idx.1 merged).eraseIdx idx.2
      minSpanTree := arc :: st.minSpanTree }
  else st

/-- The `while(!queue.isEmpty())` loop, with a bound on the number of iterations. -/
def kruskalLoop (deq : Dequeue (Arc K) K) : Nat → KruskalState K → Option (KruskalState K)
  | fuel, st =>
    if st.queue.isEmpty then some st
    else
      match fuel with
      | 0 => none
      | fuel + 1 =>
        match deq st.queue with
        | none => none
        | some (arc, queue) => kruskalLoop deq fuel (kruskalStep { st with queue := queue } arc)

/-- The computation of `kruskalAction` up to the end of its loop. One iteration per arc is
always enough: every iteration dequeues an arc. -/
def kruskal (g : Graph K) (deq : Dequeue (Arc K) K) : Option (KruskalState K) :=
  kruskalLoop deq g.arcs.length (kruskalInit g)

end Model

/-! ## Notions used to state the properties -/

section Notions

variable {K : Type} [LinearOrderedAddCommGroup K]

/-- The sum of the costs of a list of arcs. -/
def arcsCost (w : List (Arc K)) : K := (w.map Arc.cost).sum

/-- `IsWalk w u v`: the arcs of `w`, followed in their direction, lead from `u` to `v`:
the first one starts at `u`, each one starts where the previous one finishes, and the last
one finishes at `v`. The empty list leads from a node to itself. -/
def IsWalk : List (Arc K) → Node → Node → Prop
  | [], u, v => u = v
  | a :: w, u, v => a.start = u ∧ IsWalk w a.finish v

/-- A walk of the graph from `u` to `v`: a walk made of arcs of the graph. -/
def Graph.Walk (g : Graph K) (w : List (Arc K)) (u v : Node) : Prop :=
  (∀ a ∈ w, a ∈ g.arcs) ∧ IsWalk w u v

/-- All arc costs are non-negative. -/
def Graph.NonNegative (g : Graph K) : Prop := ∀ a ∈ g.arcs, 0 ≤ a.cost

/-- The addition `fadd` of the machine is exact on non-negative costs whose sum does not
exceed `B`: there it gives the sum itself, without rounding. -/
def ExactUpTo (fadd : K → K → K) (B : K) : Prop :=
  ∀ x y : K, 0 ≤ x → 0 ≤ y → x + y ≤ B → fadd x y = x + y

/-- A well-formed graph: the node set has no repetition and both ends of every arc are
nodes of the graph. -/
def Graph.WellFormed (g : Graph K) : Prop :=
  g.nodes.Nodup ∧ ∀ a ∈ g.arcs, a.start ∈ g.nodes ∧ a.finish ∈ g.nodes

/-- Every arc has an opposite arc of the same cost. -/
def Graph.Reciprocal (g : Graph K) : Prop :=
  ∀ a ∈ g.arcs, ∃ b ∈ g.arcs, b.start = a.finish ∧ b.finish = a.start ∧ b.cost = a.cost

/-- Two nodes are the two ends of some arc of `L`, read as an undirected edge. -/
def Adj (L : List (Arc K)) (u v : Node) : Prop :=
  ∃ e ∈ L, (e.start = u ∧ e.finish = v) ∨ (e.start = v ∧ e.finish = u)

/-- Two nodes are joined by the arcs of `L` read as undirected edges. -/
def Joined (L : List (Arc K)) : Node → Node → Prop := Relation.ReflTransGen (Adj L)

/-- A connected graph: any two nodes are joined. -/
def Graph.Connected (g : Graph K) : Prop :=
  ∀ u ∈ g.nodes, ∀ v ∈ g.nodes, Joined g.arcs u v

/-- The node a traversal step leaves: a step is an arc with a direction, `true` for the
direction of the arc. -/
def stepSrc (s : Arc K × Bool) : Node := if s.2 then s.1.start else s.1.finish

/-- The node a traversal step reaches. -/
def stepDst (s : Arc K × Bool) : Node := if s.2 then s.1.finish else s.1.start

/-- `IsUWalk t u v`: the steps of `t` lead from `u` to `v`. -/
def IsUWalk : List (Arc K × Bool) → Node → Node → Prop
  | [], u, v => u = v
  | s :: t, u, v => stepSrc s = u ∧ IsUWalk t (stepDst s) v

/-- The arcs of `L`, read as undirected edges, contain a cycle: a non-empty closed
sequence of steps that uses no arc of `L` more often than it occurs in `L`. -/
def HasCycle (L : List (Arc K)) : Prop :=
  ∃ (t : List (Arc K × Bool)) (u : Node),
    t ≠ [] ∧ (t.map Prod.fst).Subperm L ∧ IsUWalk t u u

/-- No cycle. -/
def Acyclic (L : List (Arc K)) : Prop := ¬ HasCycle L

/-- Every arc is a bridge: without it, its two ends are not joined. -/
def AllBridges (L : List (Arc K)) : Prop :=
  ∀ e R, List.Perm L (e :: R) → ¬ Joined R e.start e.finish

/-- A spanning tree of the graph: arcs of the graph without a cycle that join any two
nodes. -/
def IsSpanningTree (g : Graph K) (T : List (Arc K)) : Prop :=
  T.Subperm g.arcs ∧ Acyclic T ∧ ∀ u ∈ g.nodes, ∀ v ∈ g.nodes, Joined T u v

/-- A list with exactly one node of each connected component of the graph. Its length is
the number of components. -/
def IsComponentReps (g : Graph K) (reps : List Node) : Prop :=
  (∀ r ∈ reps, r ∈ g.nodes) ∧ (∀ v ∈ g.nodes, ∃ r ∈ reps, Joined g.arcs r v) ∧
    reps.Pairwise (fun r s => ¬ Joined g.arcs r s)

/-- The states of the Kruskal loop: the state after initialisation, and the state after
each iteration. -/
inductive KruskalReach (g : Graph K) (deq : Dequeue (Arc K) K) : KruskalState K → Prop
  | init : KruskalReach g deq (kruskalInit g)
  | step (st : KruskalState K) (arc : Arc K) (queue : PriorityQueue (Arc K) K) :
      KruskalReach g deq st → st.queue.isEmpty = false → deq st.queue = some (arc, queue) →
      KruskalReach g deq (kruskalStep { st with queue := queue } arc)

end Notions

/-! ## The addition of `double` on integer values -/

/-- The number of low-order bits of `n` that do not fit in a significand of 53 bits. -/
def shiftCount : Nat → Nat → Nat
  | 0, _ => 0
  | fuel + 1, n => if n < 2 ^ 53 then 0 else shiftCount fuel (n / 2) + 1

/-- The binary64 number nearest to the natural number `n`, ties going to the even
significand (the default rounding of IEEE 754). Numbers below `2 ^ 53` are kept as they
are. Overflow is not modelled: `n` is meant to stay below `2 ^ 1024`. -/
def roundNat (n : Nat) : Nat :=
  let e := shiftCount 1100 n
  let q := n / 2 ^ e
  let r := n % 2 ^ e
  if 2 * r < 2 ^ e then q * 2 ^ e
  else if 2 ^ e < 2 * r then (q + 1) * 2 ^ e
  else if q % 2 = 0 then q * 2 ^ e
  else (q + 1) * 2 ^ e

/-- The binary64 number nearest to the integer `z`. -/
def roundDouble (z : ℤ) : ℤ :=
  if 0 ≤ z then (roundNat z.toNat : ℤ) else -(roundNat (-z).toNat : ℤ)

/-- The addition of `double`, on doubles whose values are integers: an integer stands for
the double of that value, and the sum is the exact sum rounded to binary64. -/
def doubleAdd (a b : ℤ) : ℤ := roundDouble (a + b)

/-! ## Test graphs -/

def nA : Node := ⟨"A"⟩
def nB : Node := ⟨"B"⟩
def nC : Node := ⟨"C"⟩
def nD : Node := ⟨"D"⟩

/-- Scenario 1 and 2: A-B (1), B-C (1), A-C (5). -/
def triangle : Graph ℤ :=
  ⟨[nA, nB, nC],
   [⟨nA, nB, 1⟩, ⟨nB, nA, 1⟩, ⟨nB, nC, 1⟩, ⟨nC, nB, 1⟩, ⟨nA, nC, 5⟩, ⟨nC, nA, 5⟩]⟩

/-- Scenario 3: the components {A,B} and {C,D}, each joined by an edge of cost 1. -/
def twoEdges : Graph ℤ :=
  ⟨[nA, nB, nC, nD], [⟨nA, nB, 1⟩, ⟨nB, nA, 1⟩, ⟨nC, nD, 1⟩, ⟨nD, nC, 1⟩]⟩

/-- The node E. -/
def nE : Node := ⟨"E"⟩

/-- A graph on which the additions of `double` round: A-B (2^53), B-C (1), C-D (1),
D-E (1), A-E (2^53 + 2). All costs are doubles. -/
def roundingGraph : Graph ℤ :=
  ⟨[nA, nB, nC, nD, nE],
   [⟨nA, nB, 2 ^ 53⟩, ⟨nB, nA, 2 ^ 53⟩, ⟨nB, nC, 1⟩, ⟨nC, nB, 1⟩, ⟨nC, nD, 1⟩, ⟨nD, nC, 1⟩,
    ⟨nD, nE, 1⟩, ⟨nE, nD, 1⟩, ⟨nA, nE, 2 ^ 53 + 2⟩, ⟨nE, nA, 2 ^ 53 + 2⟩]⟩

/-- The least cost of a walk from A to each node of `roundingGraph`. -/
def roundingDist (n : Node) : ℤ :=
  if n = nB then 2 ^ 53
  else if n = nC then 2 ^ 53 + 1
  else if n = nD then 2 ^ 53 + 2
  else if n = nE then 2 ^ 53 + 2
  else 0

/-- The state of the Kruskal loop on `twoEdges` after its first iteration, which dequeues
the arc A -> B and merges the sets of A and B. -/
def twoEdgesAfterOne : KruskalState ℤ :=
  kruskalStep
    { kruskalInit twoEdges with
      queue := [(⟨nB, nA, 1⟩, 1), (⟨nC, nD, 1⟩, 1), (⟨nD, nC, 1⟩, 1)] }
    ⟨nA, nB, 1⟩

end Pathfinder

namespace Pathfinder

/-! ## Auxiliary notions of the proofs -/

section Auxiliary

variable {K : Type} [LinearOrderedAddCommGroup K]

/-- The quantity that decreases at every iteration: the number of queued paths plus the
number of arcs whose start node is not fixed yet. -/
def measure (g : Graph K) (st : SPState K) : Nat :=
  st.queue.length + (g.arcs.filter (fun a => !containsKey st.fixed a.start.name)).length

/-- Every queued path has at least one arc. -/
def QueueNonempty (st : SPState K) : Prop := ∀ e ∈ st.queue, e.1.arcs ≠ []

/-- The index that the scan of `findIndices` yields for the node `v`: the index of the last
set that contains `v`, counting from `c`, and `d` when there is none. -/
def lastIdx (v : Node) : List (Finset Node) → Nat → Nat → Nat
  | [], _, d => d
  | S :: l, c, d => lastIdx v l (c + 1) (if v ∈ S then c else d)

/-- The invariant of the Kruskal loop. -/
structure KInv (g : Graph K) (st : KruskalState K) : Prop where
  cover : ∀ v ∈ g.nodes, ∃ S ∈ st.connectedNodeSet, v ∈ S
  disjoint : st.connectedNodeSet.Pairwise (fun A B => Disjoint A B)
  classes : ∀ S ∈ st.connectedNodeSet, ∀ a ∈ S, ∀ b, b ∈ S ↔ Joined st.minSpanTree a b
  nonempty : ∀ S ∈ st.connectedNodeSet, S.Nonempty
  subset : ∀ S ∈ st.connectedNodeSet, ∀ v ∈ S, v ∈ g.nodes
  count : st.minSpanTree.length + st.connectedNodeSet.length = g.nodes.length
  subperm : (st.minSpanTree ++ st.queue.map Prod.fst).Subperm g.arcs
  processed : ∀ a ∈ g.arcs, a ∈ st.queue.map Prod.fst ∨ Joined st.minSpanTree a.start a.finish
  bridges : AllBridges st.minSpanTree
  prio : ∀ e ∈ st.queue, e.2 = e.1.cost

/-- The invariant of the loop of `findShortestPath`, for a search started at `s0`, at the
head of the loop. The current path and the queued paths are walks from `s0` that use no arc
twice and whose recorded cost is the exact sum of their arc costs; all their nodes but the
last one are fixed; fixed nodes carry a cost that no walk beats; and every arc that leaves
the fixed nodes has a queued path. -/
structure SPInv (g : Graph K) (s0 finish : Node) (st : SPState K) : Prop where
  path_walk : g.Walk st.path.arcs s0 st.start
  path_cost : st.path.costs = arcsCost st.path.arcs
  path_nodup : st.path.arcs.Nodup
  path_fixed : ∀ b ∈ st.path.arcs,
    containsKey st.fixed b.finish.name = true ∨ b.finish = st.start
  queue_ok : ∀ e ∈ st.queue, e.1.arcs ≠ [] ∧ (∃ v, g.Walk e.1.arcs s0 v) ∧
    e.1.costs = arcsCost e.1.arcs ∧ e.2 = e.1.costs
  queue_nodup : ∀ e ∈ st.queue, e.1.arcs.Nodup ∧
    ∀ b ∈ e.1.arcs.dropLast, containsKey st.fixed b.finish.name = true
  fixed_opt : ∀ x d, (x, d) ∈ st.fixed → ∀ w, g.Walk w s0 ⟨x⟩ → d ≤ arcsCost w
  finish_free : containsKey st.fixed finish.name = false
  start_opt : containsKey st.fixed st.start.name = false →
    ∀ w, g.Walk w s0 st.start → st.path.costs ≤ arcsCost w
  frontier : ∀ a ∈ g.arcs, ∀ d, (a.start.name, d) ∈ st.fixed →
    containsKey st.fixed a.finish.name = false →
    a.finish = st.start ∨ ∃ e ∈ st.queue, g.Walk e.1.arcs s0 a.finish ∧ e.2 ≤ d + a.cost
  origin : containsKey st.fixed s0.name = true ∨ st.start = s0

/-- The part of the invariant of `findShortestPath` that needs no assumption on the costs:
the current path and the queued paths are walks of the graph that start at `s0`. -/
structure SPWalkInv (g : Graph K) (s0 : Node) (st : SPState K) : Prop where
  path_walk : g.Walk st.path.arcs s0 st.start
  queue_walk : ∀ e ∈ st.queue, e.1.arcs ≠ [] ∧ ∃ v, g.Walk e.1.arcs s0 v

/-- Arcs of the graph, each of them a bridge, that join the two ends of every arc of the
graph: a spanning forest of the graph. -/
def Spans (g : Graph K) (T : List (Arc K)) : Prop :=
  T.Subperm g.arcs ∧ AllBridges T ∧ ∀ a ∈ g.arcs, Joined T a.start a.finish

/-- The arcs selected so far can be completed into a spanning forest that costs no more than
any given spanning forest. -/
def Extends (g : Graph K) (F : List (Arc K)) : Prop :=
  ∀ T, Spans g T → ∃ D, Spans g (F ++ D) ∧ arcsCost (F ++ D) ≤ arcsCost T

end Auxiliary

end Pathfinder

namespace Pathfinder

/-! ## The priority queue -/

section Queue

variable {K : Type} [LinearOrderedAddCommGroup K] {α : Type}

theorem dequeueMin_spec (q : PriorityQueue α K) (hq : q ≠ []) :
    ∃ x rest, dequeueMin q = some (x, rest) ∧ List.Perm (x :: rest) q ∧ ∀ y ∈ q, x.2 ≤ y.2 := by
  induction q with
  | nil => exact absurd rfl hq
  | cons a q ih =>
    by_cases hq' : q = []
    · subst hq'
      refine ⟨a, [], by simp [dequeueMin], List.Perm.refl _, ?_⟩
      intro y hy
      simp only [List.mem_singleton] at hy
      subst hy
      exact le_rfl
    · obtain ⟨x, rest, hx, hperm, hmin⟩ := ih hq'
      by_cases hle : a.2 ≤ x.2
      · refine ⟨a, q, by simp [dequeueMin, hx, hle], List.Perm.refl _, ?_⟩
        intro y hy
        rcases List.mem_cons.mp hy with rfl | hy
        · exact le_rfl
        · exact le_trans hle (hmin y hy)
      · refine ⟨x, a :: rest, by simp [dequeueMin, hx, hle], ?_, ?_⟩
        · exact (List.Perm.swap a x rest).trans (hperm.cons a)
        · intro y hy
          rcases List.mem_cons.mp hy with rfl | hy
          · exact le_of_lt (not_le.mp hle)
          · exact hmin y hy

/-- The concrete queue `dequeueFifo` meets the assumption made on priority queues. -/
theorem minDequeue_dequeueFifo : MinDequeue (dequeueFifo : Dequeue α K) := by
  intro q hq
  obtain ⟨x, rest, hx, hperm, hmin⟩ := dequeueMin_spec q hq
  exact ⟨x, rest, by simp [dequeueFifo, hx], hperm, hmin⟩

theorem MinDequeue.mem_of_deq {deq : Dequeue α K} (hdeq : MinDequeue deq)
    {q : PriorityQueue α K} (hq : q ≠ []) :
    ∃ x rest, deq q = some (x.1, rest) ∧ List.Perm (x :: rest) q ∧ x ∈ q ∧
      rest.length + 1 = q.length ∧ (∀ y ∈ q, x.2 ≤ y.2) ∧ ∀ y ∈ q, y = x ∨ y ∈ rest := by
  obtain ⟨x, rest, hx, hperm, hmin⟩ := hdeq q hq
  refine ⟨x, rest, hx, hperm, hperm.subset (List.mem_cons_self _ _), ?_, hmin, ?_⟩
  · simpa using hperm.length_eq
  · intro y hy
    exact List.mem_cons.mp (hperm.symm.subset hy)

end Queue

end Pathfinder

namespace Pathfinder

/-! ## The class `Path` -/

section PathLemmas

variable {K : Type} [LinearOrderedAddCommGroup K]

theorem Path.add_arcs (fadd : K → K → K) (p : Path K) (a : Arc K) :
    (Path.add fadd p a).arcs = p.arcs ++ [a] := rfl

theorem Path.add_costs (fadd : K → K → K) (p : Path K) (a : Arc K) :
    (Path.add fadd p a).costs = fadd p.costs a.cost := rfl

theorem Path.add_nodes_of_mem (fadd : K → K → K) (p : Path K) (a : Arc K)
    (h : a.start ∈ p.nodes) : (Path.add fadd p a).nodes = insert a.finish p.nodes := by
  unfold Path.add
  by_cases hc : p.costs = 0
  · simp [hc, Finset.insert_eq_of_mem h]
  · simp [hc]

theorem foldl_add_nodes (fadd : K → K → K) (w : List (Arc K)) :
    ∀ p : Path K, List.Chain' (fun x y : Arc K => x.finish = y.start) w →
      (∀ a ∈ w.head?, a.start ∈ p.nodes) →
      (w.foldl (Path.add fadd) p).nodes = p.nodes ∪ (w.map Arc.finish).toFinset := by
  induction w with
  | nil => intro p _ _; simp
  | cons a w ih =>
    intro p hchain hhead
    have ha : a.start ∈ p.nodes := hhead a (by simp)
    have hnodes := Path.add_nodes_of_mem fadd p a ha
    rw [List.foldl_cons, ih (Path.add fadd p a) (List.Chain'.tail hchain)]
    · rw [hnodes]
      ext x
      simp only [Finset.mem_union, Finset.mem_insert, List.map_cons, List.toFinset_cons]
      tauto
    · intro b hb
      rw [hnodes]
      have hab : a.finish = b.start := by
        cases w with
        | nil => simp at hb
        | cons c w =>
          simp only [List.head?_cons, Option.mem_def, Option.some.injEq] at hb
          subst hb
          exact (List.chain'_cons.mp hchain).1
      rw [← hab]
      exact Finset.mem_insert_self _ _

theorem foldl_add_nodes_empty (fadd : K → K → K) (a : Arc K) (w : List (Arc K))
    (hchain : List.Chain' (fun x y : Arc K => x.finish = y.start) (a :: w)) :
    ((a :: w).foldl (Path.add fadd) Path.empty).nodes =
      insert a.start ((a :: w).map Arc.finish).toFinset := by
  have hfirst : (Path.add fadd (Path.empty : Path K) a).nodes =
      insert a.finish (insert a.start ∅) := by
    simp [Path.add, Path.empty]
  rw [List.foldl_cons, foldl_add_nodes fadd w _ (List.Chain'.tail hchain)]
  · rw [hfirst]
    ext x
    simp only [Finset.mem_union, Finset.mem_insert, List.map_cons, List.toFinset_cons,
      Finset.not_mem_empty, or_false]
    tauto
  · intro b hb
    rw [hfirst]
    have hab : a.finish = b.start := by
      cases w with
      | nil => simp at hb
      | cons c w =>
        simp only [List.head?_cons, Option.mem_def, Option.some.injEq] at hb
        subst hb
        exact (List.chain'_cons.mp hchain).1
    rw [← hab]
    exact Finset.mem_insert_self _ _

/-- C8: adding the arcs of a non-empty connected walk, in order, to a fresh `Path` leaves
`getNodes()` equal to the set made of the first arc's start node and of every arc's finish
node, whatever the costs are and however their sums are rounded; and adding one more arc
that continues the walk adds no node other than the finish node of that arc. -/
theorem path_add_getNodes (fadd : K → K → K) (a : Arc K) (w : List (Arc K))
    (hchain : List.Chain' (fun x y : Arc K => x.finish = y.start) (a :: w)) :
    ((a :: w).foldl (Path.add fadd) Path.empty).getNodes =
        insert a.start ((a :: w).map Arc.finish).toFinset ∧
      ∀ b : Arc K, ((a :: w).getLast (List.cons_ne_nil a w)).finish = b.start →
        (Path.add fadd ((a :: w).foldl (Path.add fadd) Path.empty) b).getNodes =
          insert b.finish ((a :: w).foldl (Path.add fadd) Path.empty).getNodes := by
  refine ⟨foldl_add_nodes_empty fadd a w hchain, ?_⟩
  intro b hb
  apply Path.add_nodes_of_mem
  rw [foldl_add_nodes_empty fadd a w hchain, ← hb]
  apply Finset.mem_insert_of_mem
  rw [List.mem_toFinset]
  exact List.mem_map_of_mem _ (List.getLast_mem _)

/-- Witness of `path_add_getNodes`: the walk A -> B -> C with two arcs of cost zero, the
costs being added as doubles. -/
theorem path_add_getNodes_witness :
    List.Chain' (fun x y : Arc ℤ => x.finish = y.start) [⟨nA, nB, 0⟩, ⟨nB, nC, 0⟩] ∧
    (([⟨nA, nB, 0⟩, ⟨nB, nC, 0⟩] : List (Arc ℤ)).foldl (Path.add doubleAdd) Path.empty).getNodes =
        insert nA (([⟨nA, nB, 0⟩, ⟨nB, nC, 0⟩] : List (Arc ℤ)).map Arc.finish).toFinset :=
  ⟨by simp, (path_add_getNodes doubleAdd (⟨nA, nB, 0⟩ : Arc ℤ) [⟨nB, nC, 0⟩] (by simp)).1⟩

end PathLemmas

/-! ## `findShortestPath`: the trivial query and the unreachable case -/

section Trivial

variable {K : Type} [LinearOrderedAddCommGroup K]

/-- C7: `findShortestPath(n, n)` returns the empty `Path`, of size 0 and of total cost 0,
for every graph, every priority queue and every way of adding costs, and it does so without
entering the loop (the result is there with no iteration allowed), hence without examining
any arc. -/
theorem findShortestPath_same_node (fadd : K → K → K) (g : Graph K)
    (deq : Dequeue (Path K) K) (n : Node) :
    findShortestPath fadd g deq n n = some Path.empty ∧
      (Path.empty : Path K).size = 0 ∧ (Path.empty : Path K).totalCost = 0 ∧
      findShortestPathLoop fadd g deq n 0
        { start := n, path := Path.empty, queue := [], fixed := [] } = some Path.empty := by
  refine ⟨?_, rfl, rfl, ?_⟩
  · simp [findShortestPath, findShortestPathLoop]
  · simp [findShortestPathLoop]

end Trivial

theorem twoEdges_walk_stays (w : List (Arc ℤ)) :
    ∀ u v : Node, twoEdges.Walk w u v → (u = nA ∨ u = nB) → (v = nA ∨ v = nB) := by
  induction w with
  | nil =>
    intro u v h hu
    have : u = v := h.2
    rw [← this]; exact hu
  | cons a w ih =>
    intro u v h hu
    obtain ⟨hmem, hstart, hrest⟩ := h
    have ha : a ∈ twoEdges.arcs := hmem a (List.mem_cons_self _ _)
    apply ih a.finish v ⟨fun b hb => hmem b (List.mem_cons_of_mem _ hb), hrest⟩
    rw [← hstart] at hu
    simp only [twoEdges, List.mem_cons, List.mem_singleton, List.not_mem_nil, or_false] at ha
    rcases ha with rfl | rfl | rfl | rfl
    · right; rfl
    · left; rfl
    · exact absurd hu (by decide)
    · exact absurd hu (by decide)

/-- C2, the failing input: in the graph with components {A,B} and {C,D}, C is unreachable
from A and A differs from C, yet `findShortestPath(A, C)` returns the path made of the arc
A -> B, of size 1 and total cost 1, instead of the empty path. This is so with the addition
of doubles and with the exact addition alike. -/
theorem findShortestPath_unreachable_not_empty :
    (¬ ∃ w, twoEdges.Walk w nA nC) ∧ nA ≠ nC ∧
      (findShortestPath doubleAdd twoEdges dequeueFifo nA nC).map
        (fun p => (p.arcs, p.size, p.totalCost)) = some ([⟨nA, nB, 1⟩], 1, 1) ∧
      (findShortestPath exactAdd twoEdges dequeueFifo nA nC).map
        (fun p => (p.arcs, p.size, p.totalCost)) = some ([⟨nA, nB, 1⟩], 1, 1) := by
  refine ⟨?_, by decide, by decide, by decide⟩
  rintro ⟨w, hw⟩
  exact absurd (twoEdges_walk_stays w nA nC hw (Or.inl rfl)) (by decide)

/-- C3, the failing input: in the graph with components {A,B} and {C,D}, the path returned
by `findShortestPath(A, C)` is not empty and its last arc finishes at B, not at C. This is
so with the addition of doubles and with the exact addition alike. -/
theorem findShortestPath_unreachable_wrong_end :
    (findShortestPath doubleAdd twoEdges dequeueFifo nA nC).map
        (fun p => (p.size, (p.getArc (p.size - 1)).map Arc.finish)) = some (1, some nB) ∧
      (findShortestPath exactAdd twoEdges dequeueFifo nA nC).map
        (fun p => (p.size, (p.getArc (p.size - 1)).map Arc.finish)) = some (1, some nB) ∧
      nB ≠ nC := by
  exact ⟨by decide, by decide, by decide⟩

end Pathfinder

namespace Pathfinder

/-! ## `findShortestPath`: termination -/

section Termination

variable {K : Type} [LinearOrderedAddCommGroup K]

theorem containsKey_iff (fixed : List (String × K)) (name : String) :
    containsKey fixed name = true ↔ name ∈ fixed.map Prod.fst := by
  simp [containsKey]

theorem containsKey_cons (fixed : List (String × K)) (k : String) (c : K) (name : String) :
    containsKey ((k, c) :: fixed) name = true ↔ name = k ∨ containsKey fixed name = true := by
  simp [containsKey]

theorem foldl_enqueue {α β : Type} (c : β → Bool) (f : β → α) (h : β → K) (l : List β) :
    ∀ q : PriorityQueue α K,
      l.foldl (fun q a => if c a then q else PriorityQueue.enqueue q (f a) (h a)) q =
        q ++ (l.filter (fun a => !c a)).map (fun a => (f a, h a)) := by
  induction l with
  | nil => intro q; simp
  | cons a l ih =>
    intro q
    rw [List.foldl_cons, ih]
    by_cases hc : c a = true
    · simp [hc]
    · simp [hc, PriorityQueue.enqueue]

/-- The arcs enqueued when the node `st.start` is fixed. -/
theorem relax_of_not_fixed (fadd : K → K → K) (g : Graph K) (st : SPState K)
    (h : containsKey st.fixed st.start.name = false) :
    relax fadd g st =
      { st with
        fixed := (st.start.name, st.path.totalCost) :: st.fixed
        queue := st.queue ++
          ((Node.arcs g st.start).filter (fun a =>
            !containsKey ((st.start.name, st.path.totalCost) :: st.fixed) a.finish.name)).map
            (fun a => (Path.add fadd st.path a, (Path.add fadd st.path a).totalCost)) } := by
  unfold relax
  simp only [h, Bool.false_eq_true, if_false]
  rw [foldl_enqueue
    (fun a : Arc K => containsKey ((st.start.name, st.path.totalCost) :: st.fixed) a.finish.name)
    (fun a => Path.add fadd st.path a) (fun a => (Path.add fadd st.path a).totalCost)]

theorem relax_of_fixed (fadd : K → K → K) (g : Graph K) (st : SPState K)
    (h : containsKey st.fixed st.start.name = true) : relax fadd g st = st := by
  unfold relax
  simp [h]

theorem relax_start (fadd : K → K → K) (g : Graph K) (st : SPState K) :
    (relax fadd g st).start = st.start := by
  by_cases h : containsKey st.fixed st.start.name = true
  · rw [relax_of_fixed fadd g st h]
  · rw [relax_of_not_fixed fadd g st (by simpa using h)]

theorem relax_path (fadd : K → K → K) (g : Graph K) (st : SPState K) :
    (relax fadd g st).path = st.path := by
  by_cases h : containsKey st.fixed st.start.name = true
  · rw [relax_of_fixed fadd g st h]
  · rw [relax_of_not_fixed fadd g st (by simpa using h)]

theorem filter_length_split {β : Type} (l : List β) (p q : β → Bool) :
    (l.filter p).length =
      (l.filter (fun a => p a && q a)).length + (l.filter (fun a => p a && !q a)).length := by
  induction l with
  | nil => simp
  | cons a l ih =>
    by_cases hp : p a = true <;> by_cases hq : q a = true <;>
      simp [List.filter_cons, hp, hq, ih] <;> omega

theorem filter_length_le_of_imp {β : Type} (l : List β) (p q : β → Bool)
    (h : ∀ a, p a = true → q a = true) : (l.filter p).length ≤ (l.filter q).length := by
  induction l with
  | nil => simp
  | cons a l ih =>
    by_cases hp : p a = true
    · simp [List.filter_cons, hp, h a hp, ih]
    · by_cases hq : q a = true
      · simp [List.filter_cons, hp, hq]; omega
      · simp [List.filter_cons, hp, hq, ih]

theorem measure_relax_le (fadd : K → K → K) (g : Graph K) (st : SPState K) :
    measure g (relax fadd g st) ≤ measure g st := by
  by_cases h : containsKey st.fixed st.start.name = true
  · rw [relax_of_fixed fadd g st h]
  · have h' : containsKey st.fixed st.start.name = false := by simpa using h
    rw [relax_of_not_fixed fadd g st h']
    unfold measure
    simp only [List.length_append, List.length_map]
    have hsplit := filter_length_split g.arcs (fun a => !containsKey st.fixed a.start.name)
      (fun a => decide (a.start = st.start))
    have h1 : ((Node.arcs g st.start).filter (fun a =>
        !containsKey ((st.start.name, st.path.totalCost) :: st.fixed) a.finish.name)).length ≤
        (g.arcs.filter (fun a =>
          (!containsKey st.fixed a.start.name) && decide (a.start = st.start))).length := by
      unfold Node.arcs
      rw [List.filter_filter]
      apply filter_length_le_of_imp
      intro a ha
      simp only [Bool.and_eq_true, decide_eq_true_eq, Bool.not_eq_true'] at ha ⊢
      refine ⟨?_, ha.2⟩
      rw [ha.2]; exact h'
    have h2 : (g.arcs.filter (fun a =>
        !containsKey ((st.start.name, st.path.totalCost) :: st.fixed) a.start.name)).length ≤
        (g.arcs.filter (fun a =>
          (!containsKey st.fixed a.start.name) && !decide (a.start = st.start))).length := by
      apply filter_length_le_of_imp
      intro a ha
      simp only [Bool.and_eq_true, Bool.not_eq_true', decide_eq_false_iff_not] at ha ⊢
      have hc : ¬ containsKey ((st.start.name, st.path.totalCost) :: st.fixed) a.start.name = true := by
        simp [ha]
      rw [containsKey_cons] at hc
      push_neg at hc
      refine ⟨by simpa using hc.2, ?_⟩
      intro heq
      exact hc.1 (by rw [heq])
    omega

theorem queueNonempty_relax (fadd : K → K → K) (g : Graph K) (st : SPState K) (h
    : QueueNonempty st) :
    QueueNonempty (relax fadd g st) := by
  by_cases hf : containsKey st.fixed st.start.name = true
  · rw [relax_of_fixed fadd g st hf]; exact h
  · rw [relax_of_not_fixed fadd g st (by simpa using hf)]
    intro e he
    simp only [List.mem_append, List.mem_map] at he
    rcases he with he | ⟨a, _, rfl⟩
    · exact h e he
    · simp [Path.add]

theorem getArc_last (p : Path K) (h : p.arcs ≠ []) :
    p.getArc (p.size - 1) = some (p.arcs.getLast h) := by
  unfold Path.getArc Path.size
  rw [List.getLast_eq_getElem]
  exact List.getElem?_eq_getElem _

theorem loop_of_eq (fadd : K → K → K) (g : Graph K) (deq : Dequeue (Path K) K) (finish : Node)
    (fuel : Nat)
    (st : SPState K) (h : st.start = finish) :
    findShortestPathLoop fadd g deq finish fuel st = some st.path := by
  cases fuel <;> simp [findShortestPathLoop, h]

theorem loop_of_empty (fadd : K → K → K) (g : Graph K) (deq : Dequeue (Path K) K) (finish : Node)
    (fuel : Nat)
    (st : SPState K) (h : st.start ≠ finish) (hq : (relax fadd g st).queue = []) :
    findShortestPathLoop fadd g deq finish (fuel + 1) st = some (relax fadd g st).path := by
  simp [findShortestPathLoop, h, hq]

theorem loop_of_deq (fadd : K → K → K) (g : Graph K) (deq : Dequeue (Path K) K) (finish : Node)
    (fuel : Nat)
    (st : SPState K) (h : st.start ≠ finish) (hq : (relax fadd g st).queue ≠ [])
    (p : Path K) (rest : PriorityQueue (Path K) K) (hd : deq (relax fadd g st).queue = some (p, rest))
    (hp : p.arcs ≠ []) :
    findShortestPathLoop fadd g deq finish (fuel + 1) st =
      findShortestPathLoop fadd g deq finish fuel
        { relax fadd g st with start := (p.arcs.getLast hp).finish, path := p, queue := rest } := by
  rw [findShortestPathLoop]
  simp only [h, if_false, List.isEmpty_eq_true, hq, hd, getArc_last p hp]

theorem loop_terminates (fadd : K → K → K) (g : Graph K) (deq : Dequeue (Path K) K) (hdeq
    : MinDequeue deq)
    (finish : Node) :
    ∀ (fuel : Nat) (st : SPState K), QueueNonempty st → measure g st < fuel →
      ∃ p, findShortestPathLoop fadd g deq finish fuel st = some p := by
  intro fuel
  induction fuel with
  | zero => intro st _ h; omega
  | succ fuel ih =>
    intro st hne hlt
    by_cases hfin : st.start = finish
    · exact ⟨_, loop_of_eq fadd g deq finish _ st hfin⟩
    · by_cases hq : (relax fadd g st).queue = []
      · exact ⟨_, loop_of_empty fadd g deq finish fuel st hfin hq⟩
      · obtain ⟨x, rest, hd, _, hx, hlen, _, hsub⟩ := hdeq.mem_of_deq hq
        have hne1 := queueNonempty_relax fadd g st hne
        have hp : x.1.arcs ≠ [] := hne1 x hx
        rw [loop_of_deq fadd g deq finish fuel st hfin hq x.1 rest hd hp]
        apply ih
        · intro e he
          exact hne1 e ((List.Perm.subset (by assumption) (List.mem_cons_of_mem _ he)))
        · have hm := measure_relax_le fadd g st
          unfold measure at hm hlt ⊢
          simp only at hm ⊢
          omega

theorem loop_fuel_mono (fadd : K → K → K) (g : Graph K) (deq : Dequeue (Path K) K) (finish : Node) :
    ∀ (fuel : Nat) (st : SPState K) (p : Path K),
      findShortestPathLoop fadd g deq finish fuel st = some p →
      ∀ k, findShortestPathLoop fadd g deq finish (fuel + k) st = some p := by
  intro fuel
  induction fuel with
  | zero =>
    intro st p h k
    by_cases hfin : st.start = finish
    · rw [loop_of_eq fadd g deq finish _ st hfin] at h ⊢; exact h
    · simp [findShortestPathLoop, hfin] at h
  | succ fuel ih =>
    intro st p h k
    by_cases hfin : st.start = finish
    · rw [loop_of_eq fadd g deq finish _ st hfin] at h ⊢; exact h
    · have hk : fuel + 1 + k = (fuel + k) + 1 := by omega
      rw [hk]
      rw [findShortestPathLoop] at h ⊢
      simp only [hfin, if_false] at h ⊢
      by_cases hq : (relax fadd g st).queue.isEmpty = true
      · simp only [hq, if_true] at h ⊢; exact h
      · simp only [hq, Bool.false_eq_true, if_false] at h ⊢
        cases hd : deq (relax fadd g st).queue with
        | none => simp [hd] at h
        | some r =>
          obtain ⟨path, queue⟩ := r
          simp only [hd] at h ⊢
          cases harc : path.getArc (path.size - 1) with
          | none => simp [harc] at h
          | some arc =>
            simp only [harc] at h ⊢
            exact ih _ p h k

theorem initial_measure (g : Graph K) (start : Node) :
    measure g { start := start, path := Path.empty, queue := [], fixed := [] } <
      g.arcs.length + 1 := by
  unfold measure
  have := List.length_filter_le (fun a : Arc K =>
    !containsKey ([] : List (String × K)) a.start.name) g.arcs
  simp only [List.length_nil, zero_add]
  omega

/-- The search returns a path, whatever the graph and the two nodes are. -/
theorem findShortestPath_returns (fadd : K → K → K) (g : Graph K) (deq : Dequeue (Path K) K)
    (hdeq : MinDequeue deq) (start finish : Node) :
    ∃ p, findShortestPath fadd g deq start finish = some p :=
  loop_terminates fadd g deq hdeq finish (g.arcs.length + 1)
    { start := start, path := Path.empty, queue := [], fixed := [] }
    (by intro e he; simp at he) (initial_measure g start)

/-- C9: `findShortestPath` terminates on every graph and every pair of nodes, whether or
not `finish` is reachable from `start`, as soon as dequeuing removes one entry of the queue:
a result is returned after at most one loop iteration more than the graph has arcs, and
allowing more iterations does not change it. -/
theorem findShortestPath_terminates (fadd : K → K → K) (g : Graph K) (deq : Dequeue (Path K) K)
    (hdeq : MinDequeue deq) (start finish : Node) :
    ∃ p, findShortestPath fadd g deq start finish = some p ∧
      ∀ fuel, g.arcs.length + 1 ≤ fuel →
        findShortestPathLoop fadd g deq finish fuel
          { start := start, path := Path.empty, queue := [], fixed := [] } = some p := by
  obtain ⟨p, hp⟩ := findShortestPath_returns fadd g deq hdeq start finish
  refine ⟨p, hp, ?_⟩
  intro fuel hfuel
  obtain ⟨k, rfl⟩ := Nat.exists_eq_add_of_le hfuel
  exact loop_fuel_mono fadd g deq finish _ _ p hp k

/-- Witness of `findShortestPath_terminates`: the query from A to the unreachable node C in
the graph with components {A,B} and {C,D}. -/
theorem findShortestPath_terminates_witness :
    ∃ p, findShortestPath doubleAdd twoEdges dequeueFifo nA nC = some p ∧
      ∀ fuel, twoEdges.arcs.length + 1 ≤ fuel →
        findShortestPathLoop doubleAdd twoEdges dequeueFifo nC fuel
          { start := nA, path := Path.empty, queue := [], fixed := [] } = some p :=
  findShortestPath_terminates doubleAdd twoEdges dequeueFifo minDequeue_dequeueFifo nA nC

end Termination

end Pathfinder

namespace Pathfinder

/-! ## Nodes joined by a set of arcs -/

section JoinedLemmas

variable {K : Type} [LinearOrderedAddCommGroup K]

theorem Adj.swap {L : List (Arc K)} {u v : Node} (h : Adj L u v) : Adj L v u := by
  obtain ⟨e, he, h⟩ := h
  exact ⟨e, he, h.symm⟩

theorem Joined.refl (L : List (Arc K)) (u : Node) : Joined L u u :=
  Relation.ReflTransGen.refl

theorem Joined.trans {L : List (Arc K)} {u v w : Node} (h1 : Joined L u v)
    (h2 : Joined L v w) : Joined L u w :=
  Relation.ReflTransGen.trans h1 h2

theorem Joined.symm {L : List (Arc K)} {u v : Node} (h : Joined L u v) : Joined L v u :=
  Relation.ReflTransGen.symmetric (fun _ _ hab => Adj.swap hab) h

theorem Joined.mono {L L' : List (Arc K)} (hsub : ∀ e ∈ L, e ∈ L') {u v : Node}
    (h : Joined L u v) : Joined L' u v := by
  refine Relation.ReflTransGen.mono ?_ h
  rintro a b ⟨e, he, hab⟩
  exact ⟨e, hsub e he, hab⟩

theorem Joined.of_mem {L : List (Arc K)} {e : Arc K} (he : e ∈ L) :
    Joined L e.start e.finish :=
  Relation.ReflTransGen.single ⟨e, he, Or.inl ⟨rfl, rfl⟩⟩

theorem joined_nil {u v : Node} : Joined ([] : List (Arc K)) u v ↔ u = v := by
  constructor
  · intro h
    induction h with
    | refl => rfl
    | tail _ hadj _ =>
      obtain ⟨e, he, _⟩ := hadj
      simp at he
  · rintro rfl
    exact Joined.refl _ _

/-- Joining through the arcs of `A` is joining through `B` when the two ends of every arc of
`A` are joined through `B`. -/
theorem joined_of_forall {A B : List (Arc K)}
    (h : ∀ e ∈ A, Joined B e.start e.finish) {u v : Node} (huv : Joined A u v) :
    Joined B u v := by
  induction huv with
  | refl => exact Joined.refl _ _
  | @tail c d _ hadj ih =>
    obtain ⟨e, he, ⟨h1, h2⟩ | ⟨h1, h2⟩⟩ := hadj
    · subst h1; subst h2
      exact ih.trans (h e he)
    · subst h1; subst h2
      exact ih.trans (h e he).symm

/-- What an additional arc can join. -/
theorem joined_cons {e : Arc K} {L : List (Arc K)} {a b : Node} (h : Joined (e :: L) a b) :
    Joined L a b ∨ (Joined L a e.start ∧ Joined L e.finish b) ∨
      (Joined L a e.finish ∧ Joined L e.start b) := by
  induction h with
  | refl => exact Or.inl (Joined.refl _ _)
  | @tail c d _ hadj ih =>
    obtain ⟨f, hf, hcd⟩ := hadj
    rcases List.mem_cons.mp hf with rfl | hfL
    · -- the new arc itself
      rcases hcd with ⟨hc, hd⟩ | ⟨hd, hc⟩
      · subst hc; subst hd
        rcases ih with h1 | ⟨h1, _⟩ | ⟨h1, _⟩
        · exact Or.inr (Or.inl ⟨h1, Joined.refl _ _⟩)
        · exact Or.inr (Or.inl ⟨h1, Joined.refl _ _⟩)
        · exact Or.inl h1
      · subst hc; subst hd
        rcases ih with h1 | ⟨h1, _⟩ | ⟨h1, _⟩
        · exact Or.inr (Or.inr ⟨h1, Joined.refl _ _⟩)
        · exact Or.inl h1
        · exact Or.inr (Or.inr ⟨h1, Joined.refl _ _⟩)
    · have hstep : Joined L c d := Relation.ReflTransGen.single ⟨f, hfL, hcd⟩
      rcases ih with h1 | ⟨h1, h2⟩ | ⟨h1, h2⟩
      · exact Or.inl (h1.trans hstep)
      · exact Or.inr (Or.inl ⟨h1, h2.trans hstep⟩)
      · exact Or.inr (Or.inr ⟨h1, h2.trans hstep⟩)

theorem joined_cons_of_not {e : Arc K} {L : List (Arc K)} {a b : Node}
    (h : Joined (e :: L) a b) (hn : ¬ Joined L a b) :
    (Joined L a e.start ∧ Joined L e.finish b) ∨ (Joined L a e.finish ∧ Joined L e.start b) := by
  rcases joined_cons h with h1 | h1
  · exact absurd h1 hn
  · exact h1

theorem Joined.perm {L L' : List (Arc K)} (hp : List.Perm L L') {u v : Node}
    (h : Joined L u v) : Joined L' u v :=
  Joined.mono (fun _ he => hp.subset he) h

theorem Joined.cons {L : List (Arc K)} (e : Arc K) {u v : Node} (h : Joined L u v) :
    Joined (e :: L) u v :=
  Joined.mono (fun _ he => List.mem_cons_of_mem _ he) h

/-- Every arc of an arc set is a bridge as soon as this holds before an arc that joins two
nodes not joined so far is added. -/
theorem allBridges_cons {e : Arc K} {L : List (Arc K)} (hL : AllBridges L)
    (he : ¬ Joined L e.start e.finish) : AllBridges (e :: L) := by
  intro f R hperm hjoin
  by_cases hfe : f = e
  · subst hfe
    exact he (Joined.perm (List.Perm.cons_inv hperm).symm hjoin)
  · have hfL : f ∈ L := by
      have : f ∈ e :: L := hperm.symm.subset (List.mem_cons_self _ _)
      rcases List.mem_cons.mp this with h | h
      · exact absurd h hfe
      · exact h
    have hL' : List.Perm L (f :: L.erase f) := List.perm_cons_erase hfL
    have hR : List.Perm R (e :: L.erase f) := by
      have h1 : List.Perm (f :: R) (f :: e :: L.erase f) :=
        hperm.symm.trans ((hL'.cons e).trans (List.Perm.swap f e _))
      exact List.Perm.cons_inv h1
    have hj : Joined (e :: L.erase f) f.start f.finish := Joined.perm hR hjoin
    have hnot : ¬ Joined (L.erase f) f.start f.finish := hL f _ hL'
    have hsub : ∀ x ∈ L.erase f, x ∈ L := fun x hx => List.mem_of_mem_erase hx
    have hf : Joined L f.start f.finish := Joined.of_mem hfL
    rcases joined_cons_of_not hj hnot with ⟨h1, h2⟩ | ⟨h1, h2⟩
    · -- e.start ~ f.start - f.finish ~ e.finish
      exact he ((Joined.mono hsub h1).symm.trans (hf.trans (Joined.mono hsub h2).symm))
    · exact he ((Joined.mono hsub h2).trans (hf.symm.trans (Joined.mono hsub h1)))

theorem subperm_cons_split {β : Type} [DecidableEq β] {a : β} {l₁ l₂ : List β}
    (h : List.Subperm (a :: l₁) l₂) :
    List.Perm l₂ (a :: l₂.erase a) ∧ List.Subperm l₁ (l₂.erase a) := by
  have ha : a ∈ l₂ := h.subset (List.mem_cons_self _ _)
  refine ⟨List.perm_cons_erase ha, ?_⟩
  have := List.Subperm.erase a h
  simpa using this

/-- A part of an arc set in which every arc is a bridge has the same property. -/
theorem AllBridges.subperm {L L' : List (Arc K)} (hL : AllBridges L)
    (hsub : List.Subperm L' L) : AllBridges L' := by
  intro f R hperm hjoin
  have h1 : List.Subperm (f :: R) L := List.Subperm.trans hperm.symm.subperm hsub
  obtain ⟨hp, hs⟩ := subperm_cons_split h1
  exact hL f _ hp (Joined.mono (fun x hx => hs.subset hx) hjoin)

end JoinedLemmas

end Pathfinder

namespace Pathfinder

/-! ## The Kruskal loop: the scan and the merge -/

section ListLemmas

variable {β : Type}

theorem perm_cons_eraseIdx (l : List β) :
    ∀ (i : Nat) (h : i < l.length), List.Perm l (l[i] :: l.eraseIdx i) := by
  induction l with
  | nil => intro i h; simp at h
  | cons a l ih =>
    intro i h
    cases i with
    | zero => simp
    | succ i =>
      simp only [List.getElem_cons_succ, List.eraseIdx_cons_succ]
      have hi : i < l.length := by simpa using h
      exact ((ih i hi).cons a).trans (List.Perm.swap _ _ _)

theorem set_perm_cons_eraseIdx (l : List β) (x : β) :
    ∀ (i : Nat), i < l.length → List.Perm (l.set i x) (x :: l.eraseIdx i) := by
  induction l with
  | nil => intro i h; simp at h
  | cons a l ih =>
    intro i h
    cases i with
    | zero => simp
    | succ i =>
      simp only [List.set_cons_succ, List.eraseIdx_cons_succ]
      have hi : i < l.length := by simpa using h
      exact ((ih i hi).cons a).trans (List.Perm.swap _ _ _)

/-- Replacing the entry of index `i` and removing the entry of index `j`. -/
theorem set_eraseIdx_perm (l : List β) :
    ∀ (i j : Nat) (hi : i < l.length) (hj : j < l.length), i ≠ j →
      ∃ rest, List.Perm l (l[i] :: l[j] :: rest) ∧
        ∀ x, List.Perm ((l.set i x).eraseIdx j) (x :: rest) := by
  induction l with
  | nil => intro i j hi; simp at hi
  | cons a l ih =>
    intro i j hi hj hij
    cases i with
    | zero =>
      cases j with
      | zero => exact absurd rfl hij
      | succ j =>
        have hj' : j < l.length := by simpa using hj
        refine ⟨l.eraseIdx j, ?_, ?_⟩
        · simpa using (perm_cons_eraseIdx l j hj').cons a
        · intro x
          simp
    | succ i =>
      have hi' : i < l.length := by simpa using hi
      cases j with
      | zero =>
        refine ⟨l.eraseIdx i, ?_, ?_⟩
        · simp only [List.getElem_cons_succ, List.getElem_cons_zero]
          exact ((perm_cons_eraseIdx l i hi').cons a).trans (List.Perm.swap _ _ _)
        · intro x
          simpa using set_perm_cons_eraseIdx l x i hi'
      | succ j =>
        have hj' : j < l.length := by simpa using hj
        obtain ⟨rest, h1, h2⟩ := ih i j hi' hj' (by omega)
        refine ⟨a :: rest, ?_, ?_⟩
        · simp only [List.getElem_cons_succ]
          refine ((h1.cons a).trans (List.Perm.swap _ _ _)).trans ?_
          exact (List.Perm.swap _ _ _).cons _
        · intro x
          simp only [List.set_cons_succ, List.eraseIdx_cons_succ]
          exact ((h2 x).cons a).trans (List.Perm.swap _ _ _)

end ListLemmas

section Scan

variable {K : Type} [LinearOrderedAddCommGroup K]

theorem lastIdx_of_not_mem (v : Node) (l : List (Finset Node)) :
    ∀ c d, (∀ S ∈ l, v ∉ S) → lastIdx v l c d = d := by
  induction l with
  | nil => intro c d _; rfl
  | cons S l ih =>
    intro c d h
    have hS : v ∉ S := h S (List.mem_cons_self _ _)
    simp only [lastIdx, hS, if_false]
    exact ih _ _ (fun T hT => h T (List.mem_cons_of_mem _ hT))

theorem lastIdx_spec (v : Node) (l : List (Finset Node)) :
    ∀ (c d k : Nat) (hk : k < l.length), v ∈ l[k] →
      (∀ (j : Nat) (hj : j < l.length), v ∈ l[j] → j = k) → lastIdx v l c d = c + k := by
  induction l with
  | nil => intro c d k hk; simp at hk
  | cons S l ih =>
    intro c d k hk hmem huniq
    cases k with
    | zero =>
      have hS : v ∈ S := by simpa using hmem
      simp only [lastIdx, hS, if_true]
      rw [lastIdx_of_not_mem]
      · rfl
      · intro T hT hvT
        obtain ⟨j, hj, rfl⟩ := List.getElem_of_mem hT
        have := huniq (j + 1) (by simpa using hj) (by simpa using hvT)
        omega
    | succ k =>
      have hS : v ∉ S := by
        intro hvS
        have := huniq 0 (by simp) (by simpa using hvS)
        omega
      simp only [lastIdx, hS, if_false]
      have hk' : k < l.length := by simpa using hk
      rw [ih (c + 1) d k hk' (by simpa using hmem)]
      · omega
      · intro j hj hvj
        have := huniq (j + 1) (by simpa using hj) (by simpa using hvj)
        omega

theorem findIndices_eq (sets : List (Finset Node)) (arc : Arc K) :
    findIndices sets arc = (lastIdx arc.start sets 0 0, lastIdx arc.finish sets 0 0) := by
  have key : ∀ (l : List (Finset Node)) (c d1 d2 : Nat),
      l.foldl (fun (acc : Nat × Nat × Nat) nodes =>
        (acc.1 + 1, (if arc.start ∈ nodes then acc.1 else acc.2.1),
          (if arc.finish ∈ nodes then acc.1 else acc.2.2))) (c, d1, d2) =
      (c + l.length, lastIdx arc.start l c d1, lastIdx arc.finish l c d2) := by
    intro l
    induction l with
    | nil => intro c d1 d2; simp [lastIdx]
    | cons S l ih =>
      intro c d1 d2
      rw [List.foldl_cons, ih]
      simp only [lastIdx, List.length_cons]
      congr 1
      omega
  unfold findIndices
  simp only [key]

theorem disjoint_index_unique {sets : List (Finset Node)}
    (hd : sets.Pairwise (fun A B => Disjoint A B)) {v : Node} {i j : Nat}
    (hi : i < sets.length) (hj : j < sets.length) (hvi : v ∈ sets[i]) (hvj : v ∈ sets[j]) :
    i = j := by
  rw [List.pairwise_iff_getElem] at hd
  by_contra hne
  rcases Nat.lt_or_gt_of_ne hne with hlt | hgt
  · exact Finset.disjoint_left.mp (hd i j hi hj hlt) hvi hvj
  · exact Finset.disjoint_left.mp (hd j i hj hi hgt) hvj hvi

/-- The scan finds the set that contains a node, when the sets are pairwise disjoint. -/
theorem lastIdx_of_mem {sets : List (Finset Node)}
    (hd : sets.Pairwise (fun A B => Disjoint A B)) {v : Node} {S : Finset Node}
    (hS : S ∈ sets) (hv : v ∈ S) :
    ∃ (i : Nat) (hi : i < sets.length), lastIdx v sets 0 0 = i ∧ sets[i] = S := by
  obtain ⟨i, hi, rfl⟩ := List.getElem_of_mem hS
  refine ⟨i, hi, ?_, rfl⟩
  rw [lastIdx_spec v sets 0 0 i hi hv]
  · omega
  · intro j hj hvj
    exact disjoint_index_unique hd hj hi hvj hv

end Scan

end Pathfinder

namespace Pathfinder

/-! ## The Kruskal loop: the invariant -/

section KruskalInvariant

variable {K : Type} [LinearOrderedAddCommGroup K]

theorem kruskalInit_queue (g : Graph K) :
    (kruskalInit g).queue = g.arcs.map (fun a => (a, a.cost)) := by
  have key : ∀ (l : List (Arc K)) (q : PriorityQueue (Arc K) K),
      l.foldl (fun q arc => PriorityQueue.enqueue q arc arc.cost) q =
        q ++ l.map (fun a => (a, a.cost)) := by
    intro l
    induction l with
    | nil => intro q; simp
    | cons a l ih => intro q; rw [List.foldl_cons, ih]; simp [PriorityQueue.enqueue]
  simp [kruskalInit, key]

theorem kruskalInit_sets (g : Graph K) :
    (kruskalInit g).connectedNodeSet = g.nodes.map (fun n => ({n} : Finset Node)) := by
  have key : ∀ (l : List Node) (s : List (Finset Node)),
      l.foldl (fun sets node => sets ++ [({node} : Finset Node)]) s =
        s ++ l.map (fun n => ({n} : Finset Node)) := by
    intro l
    induction l with
    | nil => intro s; simp
    | cons a l ih => intro s; rw [List.foldl_cons, ih]; simp
  simp [kruskalInit, key]

theorem kruskalInit_mst (g : Graph K) : (kruskalInit g).minSpanTree = [] := rfl

theorem kinv_init (g : Graph K) (hg : g.WellFormed) : KInv g (kruskalInit g) := by
  refine ⟨?_, ?_, ?_, ?_, ?_, ?_, ?_, ?_, ?_, ?_⟩
  · intro v hv
    rw [kruskalInit_sets]
    exact ⟨{v}, List.mem_map.mpr ⟨v, hv, rfl⟩, Finset.mem_singleton_self v⟩
  · rw [kruskalInit_sets, List.pairwise_map]
    refine List.Pairwise.imp ?_ hg.1
    intro a b hab
    exact Finset.disjoint_singleton.mpr hab
  · intro S hS a ha b
    rw [kruskalInit_sets] at hS
    obtain ⟨n, _, rfl⟩ := List.mem_map.mp hS
    rw [kruskalInit_mst, joined_nil]
    rw [Finset.mem_singleton] at ha ⊢
    rw [ha]
    exact eq_comm
  · intro S hS
    rw [kruskalInit_sets] at hS
    obtain ⟨n, _, rfl⟩ := List.mem_map.mp hS
    exact Finset.singleton_nonempty n
  · intro S hS v hv
    rw [kruskalInit_sets] at hS
    obtain ⟨n, hn, rfl⟩ := List.mem_map.mp hS
    rw [Finset.mem_singleton] at hv
    rw [hv]; exact hn
  · rw [kruskalInit_sets, kruskalInit_mst]
    simp
  · rw [kruskalInit_queue, kruskalInit_mst]
    simp only [List.nil_append, List.map_map]
    have : (Prod.fst ∘ fun a : Arc K => (a, a.cost)) = id := by funext a; rfl
    rw [this, List.map_id]
  · intro a ha
    left
    rw [kruskalInit_queue]
    simp only [List.map_map]
    exact List.mem_map.mpr ⟨a, ha, rfl⟩
  · intro e R hperm
    rw [kruskalInit_mst] at hperm
    exact absurd hperm.length_eq (by simp)
  · intro e he
    rw [kruskalInit_queue] at he
    obtain ⟨a, _, rfl⟩ := List.mem_map.mp he
    rfl

theorem kruskalStep_queue (st : KruskalState K) (arc : Arc K) :
    (kruskalStep st arc).queue = st.queue := by
  unfold kruskalStep
  by_cases h : (findIndices st.connectedNodeSet arc).1 = (findIndices st.connectedNodeSet arc).2 <;>
    simp [h]

/-- The two sets found by the scan for an arc of the graph. -/
theorem scan_arc {g : Graph K} {st : KruskalState K} (hg : g.WellFormed) (h : KInv g st)
    {arc : Arc K} (harc : arc ∈ g.arcs) :
    ∃ (i j : Nat) (hi : i < st.connectedNodeSet.length) (hj : j < st.connectedNodeSet.length),
      findIndices st.connectedNodeSet arc = (i, j) ∧
        arc.start ∈ st.connectedNodeSet[i] ∧ arc.finish ∈ st.connectedNodeSet[j] := by
  obtain ⟨S1, hS1, hs1⟩ := h.cover arc.start (hg.2 arc harc).1
  obtain ⟨S2, hS2, hs2⟩ := h.cover arc.finish (hg.2 arc harc).2
  obtain ⟨i, hi, hi1, hi2⟩ := lastIdx_of_mem h.disjoint hS1 hs1
  obtain ⟨j, hj, hj1, hj2⟩ := lastIdx_of_mem h.disjoint hS2 hs2
  refine ⟨i, j, hi, hj, ?_, ?_, ?_⟩
  · rw [findIndices_eq, hi1, hj1]
  · rw [hi2]; exact hs1
  · rw [hj2]; exact hs2

theorem kinv_step {g : Graph K} {st : KruskalState K} (hg : g.WellFormed) (h : KInv g st)
    {x : Arc K × K} {rest : PriorityQueue (Arc K) K} (hperm : List.Perm (x :: rest) st.queue) :
    KInv g (kruskalStep { st with queue := rest } x.1) := by
  have hxq : x.1 ∈ st.queue.map Prod.fst :=
    List.mem_map.mpr ⟨x, hperm.subset (List.mem_cons_self _ _), rfl⟩
  have harc : x.1 ∈ g.arcs := h.subperm.subset (List.mem_append_right _ hxq)
  obtain ⟨i, j, hi, hj, hidx, hsi, hfj⟩ := scan_arc hg h harc
  have hqsub : ∀ e ∈ rest, e ∈ st.queue := fun e he => hperm.subset (List.mem_cons_of_mem _ he)
  have hqmap : List.Perm (x.1 :: rest.map Prod.fst) (st.queue.map Prod.fst) := by
    simpa using hperm.map Prod.fst
  have hSi : st.connectedNodeSet[i] ∈ st.connectedNodeSet := List.getElem_mem _
  have hSj : st.connectedNodeSet[j] ∈ st.connectedNodeSet := List.getElem_mem _
  by_cases hij : i = j
  · -- the arc is rejected
    subst hij
    have hstep : kruskalStep { st with queue := rest } x.1 = { st with queue := rest } := by
      unfold kruskalStep
      simp [hidx]
    rw [hstep]
    have hjoin : Joined st.minSpanTree x.1.start x.1.finish :=
      (h.classes _ hSi _ hsi _).mp hfj
    refine ⟨h.cover, h.disjoint, h.classes, h.nonempty, h.subset, h.count, ?_, ?_, h.bridges, ?_⟩
    · refine List.Subperm.trans ?_ h.subperm
      apply (List.subperm_append_left _).mpr
      exact List.Subperm.trans List.Subperm.cons_self hqmap.subperm
    · intro a ha
      rcases h.processed a ha with hq | hj'
      · rcases List.mem_cons.mp (hqmap.symm.subset hq) with rfl | hr
        · exact Or.inr hjoin
        · exact Or.inl hr
      · exact Or.inr hj'
    · intro e he
      exact h.prio e (hqsub e he)
  · -- the arc is accepted
    obtain ⟨others, hp1, hp2⟩ := set_eraseIdx_perm st.connectedNodeSet i j hi hj hij
    have hstep : kruskalStep { st with queue := rest } x.1 =
        { queue := rest
          connectedNodeSet := (st.connectedNodeSet.set i
            (st.connectedNodeSet[i] ∪ st.connectedNodeSet[j])).eraseIdx j
          minSpanTree := x.1 :: st.minSpanTree } := by
      unfold kruskalStep
      simp [hidx, hij, List.getElem?_eq_getElem hi, List.getElem?_eq_getElem hj]
    rw [hstep]
    have hp3 := hp2 (st.connectedNodeSet[i] ∪ st.connectedNodeSet[j])
    set Si := st.connectedNodeSet[i] with hSi_def
    set Sj := st.connectedNodeSet[j] with hSj_def
    have hdis : (Si :: Sj :: others).Pairwise (fun A B => Disjoint A B) :=
      (List.Perm.pairwise_iff (fun {x y} (hxy : Disjoint x y) => hxy.symm) hp1).mp h.disjoint
    obtain ⟨hdi, hdis'⟩ := List.pairwise_cons.mp hdis
    obtain ⟨hdj, hdo⟩ := List.pairwise_cons.mp hdis'
    have hmemsets : ∀ S, S ∈ st.connectedNodeSet ↔ S = Si ∨ S = Sj ∨ S ∈ others := by
      intro S
      rw [hp1.mem_iff]
      simp
    have hnot : ¬ Joined st.minSpanTree x.1.start x.1.finish := by
      intro hj'
      have : x.1.finish ∈ Si := (h.classes _ hSi _ hsi _).mpr hj'
      exact Finset.disjoint_left.mp (hdi Sj (List.mem_cons_self _ _)) this hfj
    refine ⟨?_, ?_, ?_, ?_, ?_, ?_, ?_, ?_, ?_, ?_⟩
    · intro v hv
      obtain ⟨S, hS, hvS⟩ := h.cover v hv
      rcases (hmemsets S).mp hS with rfl | rfl | ho
      · exact ⟨Si ∪ Sj, hp3.symm.subset (List.mem_cons_self _ _), Finset.mem_union_left _ hvS⟩
      · exact ⟨Si ∪ Sj, hp3.symm.subset (List.mem_cons_self _ _), Finset.mem_union_right _ hvS⟩
      · exact ⟨S, hp3.symm.subset (List.mem_cons_of_mem _ ho), hvS⟩
    · apply (List.Perm.pairwise_iff (fun {x y} (hxy : Disjoint x y) => hxy.symm) hp3).mpr
      refine List.pairwise_cons.mpr ⟨?_, hdo⟩
      intro T hT
      exact Finset.disjoint_union_left.mpr
        ⟨hdi T (List.mem_cons_of_mem _ hT), hdj T hT⟩
    · intro S hS a ha b
      rcases List.mem_cons.mp (hp3.subset hS) with rfl | ho
      · -- the merged set
        constructor
        · intro hb
          have hjs : ∀ c ∈ Si, Joined (x.1 :: st.minSpanTree) x.1.start c := fun c hc =>
            Joined.cons _ ((h.classes _ hSi _ hsi c).mp hc)
          have hjf : ∀ c ∈ Sj, Joined (x.1 :: st.minSpanTree) x.1.start c := fun c hc =>
            (Joined.of_mem (List.mem_cons_self _ _)).trans
              (Joined.cons _ ((h.classes _ hSj _ hfj c).mp hc))
          have hall : ∀ c ∈ Si ∪ Sj, Joined (x.1 :: st.minSpanTree) x.1.start c := by
            intro c hc
            rcases Finset.mem_union.mp hc with hc | hc
            · exact hjs c hc
            · exact hjf c hc
          exact (hall a ha).symm.trans (hall b hb)
        · intro hjoin
          rcases Finset.mem_union.mp ha with ha | ha
          · rcases joined_cons hjoin with h1 | ⟨_, h2⟩ | ⟨_, h2⟩
            · exact Finset.mem_union_left _ ((h.classes _ hSi _ ha b).mpr h1)
            · exact Finset.mem_union_right _ ((h.classes _ hSj _ hfj b).mpr h2)
            · exact Finset.mem_union_left _ ((h.classes _ hSi _ hsi b).mpr h2)
          · rcases joined_cons hjoin with h1 | ⟨_, h2⟩ | ⟨_, h2⟩
            · exact Finset.mem_union_right _ ((h.classes _ hSj _ ha b).mpr h1)
            · exact Finset.mem_union_right _ ((h.classes _ hSj _ hfj b).mpr h2)
            · exact Finset.mem_union_left _ ((h.classes _ hSi _ hsi b).mpr h2)
      · -- a set that was not touched
        have hS' : S ∈ st.connectedNodeSet := (hmemsets S).mpr (Or.inr (Or.inr ho))
        constructor
        · intro hb
          exact Joined.cons _ ((h.classes S hS' a ha b).mp hb)
        · intro hjoin
          rcases joined_cons hjoin with h1 | ⟨h1, _⟩ | ⟨h1, _⟩
          · exact (h.classes S hS' a ha b).mpr h1
          · have : x.1.start ∈ S := (h.classes S hS' a ha _).mpr h1
            exact absurd hsi (Finset.disjoint_left.mp (hdi S (List.mem_cons_of_mem _ ho)).symm this)
          · have : x.1.finish ∈ S := (h.classes S hS' a ha _).mpr h1
            exact absurd hfj (Finset.disjoint_left.mp (hdj S ho).symm this)
    · intro S hS
      rcases List.mem_cons.mp (hp3.subset hS) with rfl | ho
      · exact (h.nonempty _ hSi).mono Finset.subset_union_left
      · exact h.nonempty S ((hmemsets S).mpr (Or.inr (Or.inr ho)))
    · intro S hS v hv
      rcases List.mem_cons.mp (hp3.subset hS) with rfl | ho
      · rcases Finset.mem_union.mp hv with hv | hv
        · exact h.subset _ hSi v hv
        · exact h.subset _ hSj v hv
      · exact h.subset S ((hmemsets S).mpr (Or.inr (Or.inr ho))) v hv
    · have h1 := hp1.length_eq
      have h3 := hp3.length_eq
      have hc := h.count
      simp only [List.length_cons] at h1 h3 hc ⊢
      omega
    · refine List.Subperm.trans (List.Perm.subperm ?_) h.subperm
      have : List.Perm (st.minSpanTree ++ st.queue.map Prod.fst)
          (st.minSpanTree ++ (x.1 :: rest.map Prod.fst)) :=
        List.Perm.append_left _ hqmap.symm
      exact (this.trans List.perm_middle).symm
    · intro a ha
      rcases h.processed a ha with hq | hj'
      · rcases List.mem_cons.mp (hqmap.symm.subset hq) with rfl | hr
        · exact Or.inr (Joined.of_mem (List.mem_cons_self _ _))
        · exact Or.inl hr
      · exact Or.inr (Joined.cons _ hj')
    · exact allBridges_cons h.bridges hnot
    · intro e he
      exact h.prio e (hqsub e he)

end KruskalInvariant

end Pathfinder

namespace Pathfinder

/-! ## The Kruskal loop: termination, partition, spanning forest -/

section KruskalResults

variable {K : Type} [LinearOrderedAddCommGroup K]

theorem kruskalReach_inv {g : Graph K} (hg : g.WellFormed) {deq : Dequeue (Arc K) K}
    (hdeq : MinDequeue deq) {st : KruskalState K} (h : KruskalReach g deq st) : KInv g st := by
  induction h with
  | init => exact kinv_init g hg
  | step st arc queue _ hne hd ih =>
    have hq : st.queue ≠ [] := by
      intro h0
      rw [h0] at hne
      simp at hne
    obtain ⟨x, rest, hx, hperm, _⟩ := hdeq st.queue hq
    rw [hd] at hx
    simp only [Option.some.injEq, Prod.mk.injEq] at hx
    obtain ⟨rfl, rfl⟩ := hx
    exact kinv_step hg ih hperm

theorem kruskalLoop_of_empty (deq : Dequeue (Arc K) K) (fuel : Nat) (st : KruskalState K)
    (h : st.queue = []) : kruskalLoop deq fuel st = some st := by
  cases fuel <;> simp [kruskalLoop, h]

theorem kruskalLoop_of_deq (deq : Dequeue (Arc K) K) (fuel : Nat) (st : KruskalState K)
    (h : st.queue ≠ []) (arc : Arc K) (queue : PriorityQueue (Arc K) K)
    (hd : deq st.queue = some (arc, queue)) :
    kruskalLoop deq (fuel + 1) st =
      kruskalLoop deq fuel (kruskalStep { st with queue := queue } arc) := by
  rw [kruskalLoop]
  simp only [List.isEmpty_eq_true, h, if_false, hd]

/-- The loop runs to the end, through states of the loop, until the queue is empty. -/
theorem kruskalLoop_reach (g : Graph K) {deq : Dequeue (Arc K) K} (hdeq : MinDequeue deq) :
    ∀ (fuel : Nat) (st : KruskalState K), st.queue.length ≤ fuel → KruskalReach g deq st →
      ∃ st', kruskalLoop deq fuel st = some st' ∧ KruskalReach g deq st' ∧ st'.queue = [] := by
  intro fuel
  induction fuel with
  | zero =>
    intro st hlen hreach
    have hq : st.queue = [] := List.length_eq_zero.mp (Nat.le_zero.mp hlen)
    exact ⟨st, kruskalLoop_of_empty deq 0 st hq, hreach, hq⟩
  | succ fuel ih =>
    intro st hlen hreach
    by_cases hq : st.queue = []
    · exact ⟨st, kruskalLoop_of_empty deq _ st hq, hreach, hq⟩
    · obtain ⟨x, rest, hd, hperm, _⟩ := hdeq st.queue hq
      rw [kruskalLoop_of_deq deq fuel st hq x.1 rest hd]
      apply ih
      · rw [kruskalStep_queue]
        have := hperm.length_eq
        simp only [List.length_cons] at this
        simp only
        omega
      · exact KruskalReach.step st x.1 rest hreach (by simpa using hq) hd

theorem kruskal_result (g : Graph K) (hg : g.WellFormed) {deq : Dequeue (Arc K) K}
    (hdeq : MinDequeue deq) :
    ∃ st, kruskal g deq = some st ∧ KruskalReach g deq st ∧ KInv g st ∧ st.queue = [] := by
  obtain ⟨st, h1, h2, h3⟩ := kruskalLoop_reach g hdeq g.arcs.length (kruskalInit g)
    (by rw [kruskalInit_queue]; simp) KruskalReach.init
  exact ⟨st, h1, h2, kruskalReach_inv hg hdeq h2, h3⟩

/-- At the end of the loop the arcs selected join exactly the nodes that the graph joins. -/
theorem kinv_final_joined {g : Graph K} {st : KruskalState K} (h : KInv g st)
    (hq : st.queue = []) (u v : Node) : Joined st.minSpanTree u v ↔ Joined g.arcs u v := by
  constructor
  · apply Joined.mono
    intro e he
    exact h.subperm.subset (List.mem_append_left _ he)
  · apply joined_of_forall
    intro e he
    rcases h.processed e he with h1 | h1
    · rw [hq] at h1; simp at h1
    · exact h1

/-- The two ends of a sequence of steps through arcs of `R` are joined by `R`. -/
theorem joined_of_uwalk (R : List (Arc K)) (t : List (Arc K × Bool)) :
    ∀ (a b : Node), (∀ x ∈ t, x.1 ∈ R) → IsUWalk t a b → Joined R a b := by
  induction t with
  | nil => intro a b _ hab; rw [show a = b from hab]; exact Joined.refl _ _
  | cons x t ih =>
    intro a b hmem hab
    obtain ⟨h1, h2⟩ := hab
    have hx : x.1 ∈ R := hmem x (List.mem_cons_self _ _)
    have hstep : Joined R a (stepDst x) := by
      rw [← h1]
      unfold stepSrc stepDst
      cases x.2
      · simpa using (Joined.of_mem hx).symm
      · simpa using Joined.of_mem hx
    exact hstep.trans (ih _ _ (fun y hy => hmem y (List.mem_cons_of_mem _ hy)) h2)

theorem joined_step_ends (R : List (Arc K)) (s : Arc K × Bool)
    (h : Joined R (stepDst s) (stepSrc s)) : Joined R s.1.start s.1.finish := by
  unfold stepSrc stepDst at h
  cases hs2 : s.2
  · simpa [hs2] using h
  · simpa [hs2] using h.symm

/-- A set of arcs in which every arc is a bridge has no cycle. -/
theorem acyclic_of_allBridges {L : List (Arc K)} (h : AllBridges L) : Acyclic L := by
  rintro ⟨t, u, hne, hsub, hwalk⟩
  cases t with
  | nil => exact hne rfl
  | cons s t =>
    obtain ⟨hsrc, hrest⟩ := hwalk
    simp only [List.map_cons] at hsub
    obtain ⟨hp, hs⟩ := subperm_cons_split hsub
    have hj : Joined (L.erase s.1) (stepDst s) u :=
      joined_of_uwalk _ t _ _ (fun x hx => hs.subset (List.mem_map_of_mem _ hx)) hrest
    rw [← hsrc] at hj
    exact h s.1 _ hp (joined_step_ends _ s hj)

/-- The number of sets of the partition at the end of the loop is the number of connected
components of the graph. -/
theorem kinv_final_count {g : Graph K} {st : KruskalState K} (h : KInv g st)
    (hq : st.queue = []) {reps : List Node} (hreps : IsComponentReps g reps) :
    reps.length = st.connectedNodeSet.length := by
  obtain ⟨hnodes, hcover, hpair⟩ := hreps
  have hidx : ∀ r ∈ reps, ∃ (i : Nat) (hi : i < st.connectedNodeSet.length),
      lastIdx r st.connectedNodeSet 0 0 = i ∧ r ∈ st.connectedNodeSet[i] := by
    intro r hr
    obtain ⟨S, hS, hrS⟩ := h.cover r (hnodes r hr)
    obtain ⟨i, hi, h1, h2⟩ := lastIdx_of_mem h.disjoint hS hrS
    exact ⟨i, hi, h1, by rw [h2]; exact hrS⟩
  have hnodup : (reps.map (fun r => lastIdx r st.connectedNodeSet 0 0)).Nodup := by
    unfold List.Nodup
    rw [List.pairwise_map]
    refine List.Pairwise.imp_of_mem ?_ hpair
    intro r s hr hs hrs heq
    obtain ⟨i, hi, hi1, hi2⟩ := hidx r hr
    obtain ⟨j, hj, hj1, hj2⟩ := hidx s hs
    have hij : i = j := by rw [← hi1, ← hj1]; exact heq
    subst hij
    have : Joined st.minSpanTree r s := (h.classes _ (List.getElem_mem _) r hi2 s).mp hj2
    exact hrs ((kinv_final_joined h hq r s).mp this)
  have hperm : List.Perm (reps.map (fun r => lastIdx r st.connectedNodeSet 0 0))
      (List.range st.connectedNodeSet.length) := by
    rw [List.perm_ext_iff_of_nodup hnodup (List.nodup_range _)]
    intro i
    rw [List.mem_range, List.mem_map]
    constructor
    · rintro ⟨r, hr, rfl⟩
      obtain ⟨i, hi, hi1, _⟩ := hidx r hr
      rw [hi1]; exact hi
    · intro hi
      obtain ⟨v, hv⟩ := h.nonempty _ (List.getElem_mem (l := st.connectedNodeSet) hi)
      have hvn : v ∈ g.nodes := h.subset _ (List.getElem_mem _) v hv
      obtain ⟨r, hr, hrv⟩ := hcover v hvn
      refine ⟨r, hr, ?_⟩
      have hrS : r ∈ st.connectedNodeSet[i] :=
        (h.classes _ (List.getElem_mem _) v hv r).mpr
          ((kinv_final_joined h hq v r).mpr hrv.symm)
      obtain ⟨j, hj, hj1, hj2⟩ := hidx r hr
      rw [hj1]
      exact disjoint_index_unique h.disjoint hj hi hj2 hrS
  have := hperm.length_eq
  simpa using this

theorem connected_of_joined_root {g : Graph K} (r : Node)
    (h : ∀ v ∈ g.nodes, Joined g.arcs r v) : g.Connected :=
  fun u hu v hv => (h u hu).symm.trans (h v hv)

/-- C10: in the Kruskal loop on a well-formed graph, after initialisation and after every
iteration, every node of the graph belongs to exactly one set of `connectedNodeSet` (there is
an index whose set contains the node, and no other index does), and two nodes of the graph
belong to a same set if and only if they are joined by the arcs added to `minSpanTree` so
far. -/
theorem kruskal_partition_invariant (g : Graph K) (hg : g.WellFormed)
    (deq : Dequeue (Arc K) K) (hdeq : MinDequeue deq) (st : KruskalState K)
    (hst : KruskalReach g deq st) :
    (∀ v ∈ g.nodes, ∃ i, (∃ hi : i < st.connectedNodeSet.length, v ∈ st.connectedNodeSet[i]) ∧
        ∀ (j : Nat) (hj : j < st.connectedNodeSet.length), v ∈ st.connectedNodeSet[j] → j = i) ∧
      ∀ u ∈ g.nodes, ∀ v ∈ g.nodes,
        (∃ S ∈ st.connectedNodeSet, u ∈ S ∧ v ∈ S) ↔ Joined st.minSpanTree u v := by
  have h := kruskalReach_inv hg hdeq hst
  constructor
  · intro v hv
    obtain ⟨S, hS, hvS⟩ := h.cover v hv
    obtain ⟨i, hi, rfl⟩ := List.getElem_of_mem hS
    exact ⟨i, ⟨hi, hvS⟩, fun j hj hvj => disjoint_index_unique h.disjoint hj hi hvj hvS⟩
  · intro u hu v _
    constructor
    · rintro ⟨S, hS, huS, hvS⟩
      exact (h.classes S hS u huS v).mp hvS
    · intro hj
      obtain ⟨S, hS, huS⟩ := h.cover u hu
      exact ⟨S, hS, huS, (h.classes S hS u huS v).mpr hj⟩

/-- C4: on a connected well-formed graph with N nodes in which every arc has its opposite
arc, the Kruskal loop ends and `minSpanTree` then contains exactly N-1 arcs, contains no
cycle when its arcs are read as undirected edges, and joins every pair of nodes. -/
theorem kruskal_spanning_tree (g : Graph K) (hg : g.WellFormed) (_hrec : g.Reciprocal)
    (hconn : g.Connected) (deq : Dequeue (Arc K) K) (hdeq : MinDequeue deq) :
    ∃ st, kruskal g deq = some st ∧
      st.minSpanTree.length = g.nodes.length - 1 ∧
      (g.nodes ≠ [] → st.minSpanTree.length + 1 = g.nodes.length) ∧
      Acyclic st.minSpanTree ∧
      ∀ u ∈ g.nodes, ∀ v ∈ g.nodes, Joined st.minSpanTree u v := by
  obtain ⟨st, hres, _, h, hq⟩ := kruskal_result g hg hdeq
  have hjoin : ∀ u ∈ g.nodes, ∀ v ∈ g.nodes, Joined st.minSpanTree u v :=
    fun u hu v hv => (kinv_final_joined h hq u v).mpr (hconn u hu v hv)
  have hlen : g.nodes ≠ [] → st.connectedNodeSet.length = 1 := by
    intro hne
    obtain ⟨n, hn⟩ := List.exists_mem_of_ne_nil _ hne
    obtain ⟨S, hS, hnS⟩ := h.cover n hn
    obtain ⟨i, hi, rfl⟩ := List.getElem_of_mem hS
    have hall : ∀ (j : Nat) (hj : j < st.connectedNodeSet.length), j = i := by
      intro j hj
      obtain ⟨v, hv⟩ := h.nonempty _ (List.getElem_mem (l := st.connectedNodeSet) hj)
      have hvn : v ∈ g.nodes := h.subset _ (List.getElem_mem _) v hv
      have hvi : v ∈ st.connectedNodeSet[i] :=
        (h.classes _ (List.getElem_mem _) n hnS v).mpr (hjoin n hn v hvn)
      exact disjoint_index_unique h.disjoint hj hi hv hvi
    by_contra hne1
    have h2 : 2 ≤ st.connectedNodeSet.length := by omega
    have h0 := hall 0 (by omega)
    have h1 := hall 1 (by omega)
    omega
  have hcount := h.count
  refine ⟨st, hres, ?_, ?_, acyclic_of_allBridges h.bridges, hjoin⟩
  · by_cases hne : g.nodes = []
    · rw [hne] at hcount ⊢
      simp only [List.length_nil] at hcount ⊢
      omega
    · have := hlen hne
      omega
  · intro hne
    have := hlen hne
    omega

/-- C6: on a well-formed graph with N nodes and c connected components, connected or not,
the Kruskal loop ends and `minSpanTree` is then a spanning forest with one tree per
component: it has no cycle, it contains exactly N-c arcs, and it joins two nodes if and only
if the graph joins them. The number c is the length of a list with one node of each
component. -/
theorem kruskal_spanning_forest (g : Graph K) (hg : g.WellFormed) (deq : Dequeue (Arc K) K)
    (hdeq : MinDequeue deq) (reps : List Node) (hreps : IsComponentReps g reps) :
    ∃ st, kruskal g deq = some st ∧
      Acyclic st.minSpanTree ∧
      st.minSpanTree.length + reps.length = g.nodes.length ∧
      ∀ u v, Joined st.minSpanTree u v ↔ Joined g.arcs u v := by
  obtain ⟨st, hres, _, h, hq⟩ := kruskal_result g hg hdeq
  refine ⟨st, hres, acyclic_of_allBridges h.bridges, ?_, kinv_final_joined h hq⟩
  rw [kinv_final_count h hq hreps]
  exact h.count

end KruskalResults

end Pathfinder

namespace Pathfinder

/-! ## The Kruskal loop on the test graphs -/

theorem twoEdges_wellFormed : twoEdges.WellFormed := by
  unfold Graph.WellFormed
  exact ⟨by decide, by decide⟩

theorem triangle_wellFormed : triangle.WellFormed := by
  unfold Graph.WellFormed
  exact ⟨by decide, by decide⟩

theorem triangle_reciprocal : triangle.Reciprocal := by
  unfold Graph.Reciprocal
  decide

theorem triangle_connected : triangle.Connected := by
  apply connected_of_joined_root nA
  intro v hv
  simp only [triangle, List.mem_cons, List.mem_singleton, List.not_mem_nil, or_false] at hv
  rcases hv with rfl | rfl | rfl
  · exact Joined.refl _ _
  · exact Joined.of_mem (e := ⟨nA, nB, 1⟩) (by decide)
  · exact Joined.of_mem (e := ⟨nA, nC, 5⟩) (by decide)

theorem twoEdges_joined_stays {u v : Node} (h : Joined twoEdges.arcs u v) :
    (u = nA ∨ u = nB) → (v = nA ∨ v = nB) := by
  induction h with
  | refl => exact id
  | @tail c d _ hadj ih =>
    intro hu
    have hc := ih hu
    obtain ⟨e, he, hcd⟩ := hadj
    simp only [twoEdges, List.mem_cons, List.mem_singleton, List.not_mem_nil, or_false] at he
    rcases he with rfl | rfl | rfl | rfl
    · rcases hcd with ⟨_, h2⟩ | ⟨h1, _⟩
      · right; exact h2.symm
      · left; exact h1.symm
    · rcases hcd with ⟨_, h2⟩ | ⟨h1, _⟩
      · left; exact h2.symm
      · right; exact h1.symm
    · rcases hcd with ⟨h1, _⟩ | ⟨_, h2⟩
      · rw [← h1] at hc; exact absurd hc (by decide)
      · rw [← h2] at hc; exact absurd hc (by decide)
    · rcases hcd with ⟨h1, _⟩ | ⟨_, h2⟩
      · rw [← h1] at hc; exact absurd hc (by decide)
      · rw [← h2] at hc; exact absurd hc (by decide)

theorem twoEdges_reps : IsComponentReps twoEdges [nA, nC] := by
  refine ⟨by decide, ?_, ?_⟩
  · intro v hv
    simp only [twoEdges, List.mem_cons, List.mem_singleton, List.not_mem_nil, or_false] at hv
    rcases hv with rfl | rfl | rfl | rfl
    · exact ⟨nA, by simp, Joined.refl _ _⟩
    · exact ⟨nA, by simp, Joined.of_mem (e := ⟨nA, nB, 1⟩) (by decide)⟩
    · exact ⟨nC, by simp, Joined.refl _ _⟩
    · exact ⟨nC, by simp, Joined.of_mem (e := ⟨nC, nD, 1⟩) (by decide)⟩
  · simp only [List.pairwise_cons, List.mem_singleton, forall_eq, List.not_mem_nil,
      false_implies, implies_true, List.Pairwise.nil, and_true]
    intro h
    exact absurd (twoEdges_joined_stays h (Or.inl rfl)) (by decide)

/-- The state `twoEdgesAfterOne` is the state of the loop on `twoEdges` after one
iteration: the arc A -> B is dequeued first and the sets of A and B are merged. -/
theorem twoEdgesAfterOne_reach : KruskalReach twoEdges dequeueFifo twoEdgesAfterOne :=
  KruskalReach.step (kruskalInit twoEdges) ⟨nA, nB, 1⟩
    [(⟨nB, nA, 1⟩, 1), (⟨nC, nD, 1⟩, 1), (⟨nD, nC, 1⟩, 1)]
    KruskalReach.init (by decide) (by decide)

/-- Witness of `kruskal_partition_invariant`: the state after the first iteration of the
loop on the graph with components {A,B} and {C,D}. That iteration dequeues the arc A -> B and
merges the sets of A and B: `minSpanTree` holds that arc and `connectedNodeSet` is
{A,B}, {C}, {D}. -/
theorem kruskal_partition_invariant_witness :
    twoEdges.WellFormed ∧ MinDequeue (dequeueFifo : Dequeue (Arc ℤ) ℤ) ∧
    KruskalReach twoEdges dequeueFifo twoEdgesAfterOne ∧
    twoEdgesAfterOne.minSpanTree = [⟨nA, nB, 1⟩] ∧
    twoEdgesAfterOne.connectedNodeSet = [{nA, nB}, {nC}, {nD}] ∧
    ((∀ v ∈ twoEdges.nodes, ∃ i,
        (∃ hi : i < twoEdgesAfterOne.connectedNodeSet.length,
          v ∈ twoEdgesAfterOne.connectedNodeSet[i]) ∧
        ∀ (j : Nat) (hj : j < twoEdgesAfterOne.connectedNodeSet.length),
          v ∈ twoEdgesAfterOne.connectedNodeSet[j] → j = i) ∧
      ∀ u ∈ twoEdges.nodes, ∀ v ∈ twoEdges.nodes,
        (∃ S ∈ twoEdgesAfterOne.connectedNodeSet, u ∈ S ∧ v ∈ S) ↔
          Joined twoEdgesAfterOne.minSpanTree u v) :=
  ⟨twoEdges_wellFormed, minDequeue_dequeueFifo, twoEdgesAfterOne_reach, by decide, by decide,
    kruskal_partition_invariant twoEdges twoEdges_wellFormed dequeueFifo minDequeue_dequeueFifo
      twoEdgesAfterOne twoEdgesAfterOne_reach⟩

/-- Witness of `kruskal_spanning_tree`: the triangle A-B (1), B-C (1), A-C (5), where the
loop selects two arcs. -/
theorem kruskal_spanning_tree_witness :
    triangle.WellFormed ∧ triangle.Reciprocal ∧ triangle.Connected ∧
    MinDequeue (dequeueFifo : Dequeue (Arc ℤ) ℤ) ∧
    (kruskal triangle dequeueFifo).map (fun st => st.minSpanTree) =
      some [⟨nB, nC, 1⟩, ⟨nA, nB, 1⟩] ∧
    ∃ st, kruskal triangle dequeueFifo = some st ∧
      st.minSpanTree.length = triangle.nodes.length - 1 ∧
      (triangle.nodes ≠ [] → st.minSpanTree.length + 1 = triangle.nodes.length) ∧
      Acyclic st.minSpanTree ∧
      ∀ u ∈ triangle.nodes, ∀ v ∈ triangle.nodes, Joined st.minSpanTree u v :=
  ⟨triangle_wellFormed, triangle_reciprocal, triangle_connected, minDequeue_dequeueFifo,
    by decide,
    kruskal_spanning_tree triangle triangle_wellFormed triangle_reciprocal triangle_connected
      dequeueFifo minDequeue_dequeueFifo⟩

/-- Witness of `kruskal_spanning_forest`: the graph with components {A,B} and {C,D}, each
joined by an edge of cost 1: two components, and a forest of two arcs of total cost 2. -/
theorem kruskal_spanning_forest_witness :
    twoEdges.WellFormed ∧ MinDequeue (dequeueFifo : Dequeue (Arc ℤ) ℤ) ∧
    IsComponentReps twoEdges [nA, nC] ∧
    (kruskal twoEdges dequeueFifo).map
      (fun st => (st.minSpanTree.length, arcsCost st.minSpanTree)) = some (2, 2) ∧
    ∃ st, kruskal twoEdges dequeueFifo = some st ∧
      Acyclic st.minSpanTree ∧
      st.minSpanTree.length + [nA, nC].length = twoEdges.nodes.length ∧
      ∀ u v, Joined st.minSpanTree u v ↔ Joined twoEdges.arcs u v :=
  ⟨twoEdges_wellFormed, minDequeue_dequeueFifo, twoEdges_reps, by decide,
    kruskal_spanning_forest twoEdges twoEdges_wellFormed dequeueFifo minDequeue_dequeueFifo
      [nA, nC] twoEdges_reps⟩

end Pathfinder

namespace Pathfinder

/-! ## `findShortestPath`: optimality -/

section Walks

variable {K : Type} [LinearOrderedAddCommGroup K]

theorem arcsCost_nil : arcsCost ([] : List (Arc K)) = 0 := rfl

theorem arcsCost_cons (a : Arc K) (w : List (Arc K)) :
    arcsCost (a :: w) = a.cost + arcsCost w := by
  simp [arcsCost]

theorem arcsCost_append (w1 w2 : List (Arc K)) :
    arcsCost (w1 ++ w2) = arcsCost w1 + arcsCost w2 := by
  simp [arcsCost]

theorem arcsCost_nonneg (w : List (Arc K)) (h : ∀ a ∈ w, 0 ≤ a.cost) : 0 ≤ arcsCost w := by
  induction w with
  | nil => exact le_refl _
  | cons a w ih =>
    rw [arcsCost_cons]
    exact add_nonneg (h a (List.mem_cons_self _ _))
      (ih (fun b hb => h b (List.mem_cons_of_mem _ hb)))

theorem arcsCost_perm {w1 w2 : List (Arc K)} (h : List.Perm w1 w2) :
    arcsCost w1 = arcsCost w2 :=
  (h.map Arc.cost).sum_eq

theorem arcsCost_sublist {w1 w2 : List (Arc K)} (h : List.Sublist w1 w2)
    (hnn : ∀ a ∈ w2, 0 ≤ a.cost) : arcsCost w1 ≤ arcsCost w2 := by
  induction h with
  | slnil => exact le_refl _
  | @cons l1 l2 a _ ih =>
    rw [arcsCost_cons]
    exact le_trans (ih (fun b hb => hnn b (List.mem_cons_of_mem _ hb)))
      (le_add_of_nonneg_left (hnn a (List.mem_cons_self _ _)))
  | @cons₂ l1 l2 a _ ih =>
    rw [arcsCost_cons, arcsCost_cons]
    exact add_le_add_left (ih (fun b hb => hnn b (List.mem_cons_of_mem _ hb))) _

/-- Arcs of the graph, none taken twice, cost no more than all the arcs of the graph. -/
theorem arcsCost_le_total {g : Graph K} (hnn : g.NonNegative) {w : List (Arc K)}
    (hnodup : w.Nodup) (hsub : ∀ a ∈ w, a ∈ g.arcs) : arcsCost w ≤ arcsCost g.arcs := by
  obtain ⟨l, hperm, hsl⟩ := List.subperm_of_subset hnodup hsub
  rw [← arcsCost_perm hperm]
  exact arcsCost_sublist hsl hnn

theorem isWalk_snoc (w : List (Arc K)) (a : Arc K) :
    ∀ u v, IsWalk (w ++ [a]) u v ↔ IsWalk w u a.start ∧ a.finish = v := by
  induction w with
  | nil =>
    intro u v
    simp only [List.nil_append, IsWalk]
    constructor
    · rintro ⟨h1, h2⟩; exact ⟨h1.symm, h2⟩
    · rintro ⟨h1, h2⟩; exact ⟨h1.symm, h2⟩
  | cons b w ih =>
    intro u v
    show (b.start = u ∧ IsWalk (w ++ [a]) b.finish v) ↔
      (b.start = u ∧ IsWalk w b.finish a.start) ∧ a.finish = v
    rw [ih]
    tauto

theorem isWalk_last (w : List (Arc K)) (h : w ≠ []) :
    ∀ u v, IsWalk w u v → (w.getLast h).finish = v := by
  induction w with
  | nil => exact absurd rfl h
  | cons a w ih =>
    intro u v hw
    obtain ⟨_, hrest⟩ := hw
    by_cases hw' : w = []
    · subst hw'
      simpa [IsWalk] using hrest
    · rw [List.getLast_cons hw']
      exact ih hw' _ _ hrest

/-- A walk that leaves a set of nodes has an arc that leaves it. -/
theorem walk_crossing (P : Node → Prop) (w : List (Arc K)) :
    ∀ u v, IsWalk w u v → P u → ¬ P v →
      ∃ w1 a w2, w = w1 ++ a :: w2 ∧ IsWalk w1 u a.start ∧ P a.start ∧ ¬ P a.finish := by
  induction w with
  | nil =>
    intro u v huv hu hv
    rw [show u = v from huv] at hu
    exact absurd hu hv
  | cons a w ih =>
    intro u v huv hu hv
    obtain ⟨hstart, hrest⟩ := huv
    by_cases hP : P a.finish
    · obtain ⟨w1, b, w2, hw, hw1, hb1, hb2⟩ := ih _ _ hrest hP hv
      refine ⟨a :: w1, b, w2, by rw [hw]; rfl, ⟨hstart, hw1⟩, hb1, hb2⟩
    · refine ⟨[], a, w, rfl, hstart.symm, ?_, hP⟩
      rw [hstart]; exact hu

end Walks

section Optimality

variable {K : Type} [LinearOrderedAddCommGroup K]

theorem node_eq_of_name {a b : Node} (h : a.name = b.name) : a = b := by
  cases a; cases b; simp only at h; rw [h]

theorem containsKey_exists {fixed : List (String × K)} {name : String}
    (h : containsKey fixed name = true) : ∃ d, (name, d) ∈ fixed := by
  rw [containsKey_iff, List.mem_map] at h
  obtain ⟨⟨k, d⟩, hmem, rfl⟩ := h
  exact ⟨d, hmem⟩

theorem containsKey_of_mem {fixed : List (String × K)} {name : String} {d : K}
    (h : (name, d) ∈ fixed) : containsKey fixed name = true := by
  rw [containsKey_iff, List.mem_map]
  exact ⟨(name, d), h, rfl⟩

theorem spinv_init (g : Graph K) (hnn : g.NonNegative) (s0 finish : Node) :
    SPInv g s0 finish { start := s0, path := Path.empty, queue := [], fixed := [] } := by
  refine ⟨⟨by simp [Path.empty], rfl⟩, rfl, by simp [Path.empty], by simp [Path.empty],
    by simp, by simp, by simp, by simp [containsKey], ?_, by simp, Or.inr rfl⟩
  intro _ w hw
  exact arcsCost_nonneg w (fun a ha => hnn a (hw.1 a ha))

/-- Extending a walk that uses no arc twice by one more arc of the graph: as long as the
additions are exact up to the total cost of the graph, the cost recorded by `Path::add` is
the exact cost of the extended walk. -/
theorem add_cost_exact {fadd : K → K → K} {B : K} {g : Graph K} (hnn : g.NonNegative)
    (hexact : ExactUpTo fadd B) (hB : arcsCost g.arcs ≤ B) {p : Path K} {a : Arc K}
    (hcost : p.costs = arcsCost p.arcs) (hsub : ∀ b ∈ p.arcs, b ∈ g.arcs)
    (ha : a ∈ g.arcs) (hnodup : (p.arcs ++ [a]).Nodup) :
    (Path.add fadd p a).costs = arcsCost (Path.add fadd p a).arcs := by
  rw [Path.add_arcs, Path.add_costs, hcost]
  have hsub' : ∀ b ∈ p.arcs ++ [a], b ∈ g.arcs := by
    intro b hb
    rcases List.mem_append.mp hb with hb | hb
    · exact hsub b hb
    · rw [List.mem_singleton] at hb; rw [hb]; exact ha
  have htotal := arcsCost_le_total hnn hnodup hsub'
  have hsum : arcsCost (p.arcs ++ [a]) = arcsCost p.arcs + a.cost := by
    rw [arcsCost_append, arcsCost_cons, arcsCost_nil, add_zero]
  rw [hsum] at htotal ⊢
  exact hexact _ _ (arcsCost_nonneg _ (fun b hb => hnn b (hsub b hb))) (hnn a ha)
    (le_trans htotal hB)

theorem spinv_relax {fadd : K → K → K} {B : K} {g : Graph K} (hnn : g.NonNegative)
    (hexact : ExactUpTo fadd B) (hB : arcsCost g.arcs ≤ B) {s0 finish : Node}
    {st : SPState K} (h : SPInv g s0 finish st) (hfin : st.start ≠ finish) :
    SPInv g s0 finish (relax fadd g st) ∧
      containsKey (relax fadd g st).fixed (relax fadd g st).start.name = true ∧
      containsKey (relax fadd g st).fixed s0.name = true := by
  by_cases hf : containsKey st.fixed st.start.name = true
  · rw [relax_of_fixed fadd g st hf]
    refine ⟨h, hf, ?_⟩
    rcases h.origin with h0 | h0
    · exact h0
    · rw [← h0]; exact hf
  · have hf' : containsKey st.fixed st.start.name = false := by simpa using hf
    rw [relax_of_not_fixed fadd g st hf']
    have hgrow : ∀ name, containsKey st.fixed name = true →
        containsKey ((st.start.name, st.path.totalCost) :: st.fixed) name = true := by
      intro name hn
      rw [containsKey_cons]
      exact Or.inr hn
    have hself : containsKey ((st.start.name, st.path.totalCost) :: st.fixed)
        st.start.name = true := by
      rw [containsKey_cons]
      exact Or.inl rfl
    have hpathfixed : ∀ b ∈ st.path.arcs,
        containsKey ((st.start.name, st.path.totalCost) :: st.fixed) b.finish.name = true := by
      intro b hb
      rcases h.path_fixed b hb with hb1 | hb1
      · exact hgrow _ hb1
      · rw [hb1]; exact hself
    have hnew : ∀ a ∈ (Node.arcs g st.start).filter (fun a =>
          !containsKey ((st.start.name, st.path.totalCost) :: st.fixed) a.finish.name),
        a ∈ g.arcs ∧ a.start = st.start ∧
          containsKey ((st.start.name, st.path.totalCost) :: st.fixed) a.finish.name = false := by
      intro a ha
      rw [List.mem_filter] at ha
      obtain ⟨ha1, ha2⟩ := ha
      unfold Node.arcs at ha1
      rw [List.mem_filter] at ha1
      exact ⟨ha1.1, by simpa using ha1.2, by simpa using ha2⟩
    have hnodup_new : ∀ a ∈ (Node.arcs g st.start).filter (fun a =>
          !containsKey ((st.start.name, st.path.totalCost) :: st.fixed) a.finish.name),
        (st.path.arcs ++ [a]).Nodup := by
      intro a ha
      obtain ⟨_, _, ha3⟩ := hnew a ha
      rw [List.nodup_append]
      refine ⟨h.path_nodup, List.nodup_singleton a, ?_⟩
      intro b hb hb'
      rw [List.mem_singleton] at hb'
      subst hb'
      have := hpathfixed b hb
      rw [ha3] at this
      exact absurd this (by simp)
    have hwalk_new : ∀ a ∈ (Node.arcs g st.start).filter (fun a =>
          !containsKey ((st.start.name, st.path.totalCost) :: st.fixed) a.finish.name),
        g.Walk (Path.add fadd st.path a).arcs s0 a.finish := by
      intro a ha
      obtain ⟨ha1, ha2, _⟩ := hnew a ha
      refine ⟨?_, ?_⟩
      · intro b hb
        rw [Path.add_arcs, List.mem_append, List.mem_singleton] at hb
        rcases hb with hb | rfl
        · exact h.path_walk.1 b hb
        · exact ha1
      · rw [Path.add_arcs, isWalk_snoc, ha2]
        exact ⟨h.path_walk.2, rfl⟩
    have hcost_new : ∀ a ∈ (Node.arcs g st.start).filter (fun a =>
          !containsKey ((st.start.name, st.path.totalCost) :: st.fixed) a.finish.name),
        (Path.add fadd st.path a).costs = arcsCost (Path.add fadd st.path a).arcs := by
      intro a ha
      exact add_cost_exact hnn hexact hB h.path_cost h.path_walk.1 (hnew a ha).1
        (hnodup_new a ha)
    refine ⟨⟨h.path_walk, h.path_cost, h.path_nodup, ?_, ?_, ?_, ?_, ?_, ?_, ?_, ?_⟩, ?_, ?_⟩
    · intro b hb
      exact Or.inl (hpathfixed b hb)
    · intro e he
      simp only [List.mem_append, List.mem_map] at he
      rcases he with he | ⟨a, ha, rfl⟩
      · exact h.queue_ok e he
      · exact ⟨by simp [Path.add], ⟨a.finish, hwalk_new a ha⟩, hcost_new a ha, rfl⟩
    · intro e he
      simp only [List.mem_append, List.mem_map] at he
      rcases he with he | ⟨a, ha, rfl⟩
      · exact ⟨(h.queue_nodup e he).1, fun b hb => hgrow _ ((h.queue_nodup e he).2 b hb)⟩
      · refine ⟨hnodup_new a ha, ?_⟩
        intro b hb
        rw [Path.add_arcs, List.dropLast_concat] at hb
        exact hpathfixed b hb
    · intro x d hxd w hw
      rcases List.mem_cons.mp hxd with heq | hold
      · simp only [Prod.mk.injEq] at heq
        obtain ⟨rfl, rfl⟩ := heq
        exact h.start_opt hf' w hw
      · exact h.fixed_opt x d hold w hw
    · have := h.finish_free
      have hne : finish.name ≠ st.start.name := fun hn => hfin (node_eq_of_name hn.symm)
      simp only [containsKey, List.map_cons, List.mem_cons, decide_eq_false_iff_not,
        not_or] at this ⊢
      exact ⟨hne, this⟩
    · intro hc
      rw [hself] at hc
      exact absurd hc (by simp)
    · intro a ha d had hfree
      have hfree_old : containsKey st.fixed a.finish.name = false := by
        simp only [containsKey, List.map_cons, List.mem_cons, decide_eq_false_iff_not,
          not_or] at hfree ⊢
        exact hfree.2
      rcases List.mem_cons.mp had with heq | hold
      · simp only [Prod.mk.injEq] at heq
        obtain ⟨hname, rfl⟩ := heq
        have hstart : a.start = st.start := node_eq_of_name hname
        have hmem : a ∈ (Node.arcs g st.start).filter (fun a =>
            !containsKey ((st.start.name, st.path.totalCost) :: st.fixed) a.finish.name) := by
          rw [List.mem_filter]
          refine ⟨?_, by simpa using hfree⟩
          unfold Node.arcs
          rw [List.mem_filter]
          exact ⟨ha, by simpa using hstart⟩
        right
        refine ⟨(Path.add fadd st.path a, (Path.add fadd st.path a).totalCost), ?_,
          hwalk_new a hmem, ?_⟩
        · simp only [List.mem_append, List.mem_map]
          right
          exact ⟨a, hmem, rfl⟩
        · show (Path.add fadd st.path a).costs ≤ st.path.costs + a.cost
          rw [hcost_new a hmem, Path.add_arcs, arcsCost_append, arcsCost_cons, arcsCost_nil,
            add_zero, h.path_cost]
      · rcases h.frontier a ha d hold hfree_old with heq | ⟨e, he, hw, hle⟩
        · exfalso
          rw [heq, hself] at hfree
          exact absurd hfree (by simp)
        · exact Or.inr ⟨e, List.mem_append_left _ he, hw, hle⟩
    · rcases h.origin with h0 | h0
      · exact Or.inl (hgrow _ h0)
      · left
        rw [← h0]; exact hself
    · exact hself
    · rcases h.origin with h0 | h0
      · exact hgrow _ h0
      · rw [← h0]; exact hself

theorem spinv_dequeue {g : Graph K} (hnn : g.NonNegative) {s0 finish : Node} {st : SPState K}
    (h : SPInv g s0 finish st) (hstart : containsKey st.fixed st.start.name = true)
    (hs0 : containsKey st.fixed s0.name = true)
    {x : Path K × K} {rest : PriorityQueue (Path K) K} (hx : x ∈ st.queue)
    (hmin : ∀ y ∈ st.queue, x.2 ≤ y.2) (hsplit : ∀ y ∈ st.queue, y = x ∨ y ∈ rest)
    (hrest : ∀ y ∈ rest, y ∈ st.queue) (hp : x.1.arcs ≠ []) :
    SPInv g s0 finish
      { st with start := (x.1.arcs.getLast hp).finish, path := x.1, queue := rest } := by
  obtain ⟨_, ⟨v, hv⟩, hxcost, hxprio⟩ := h.queue_ok x hx
  obtain ⟨hxnodup, hxfixed⟩ := h.queue_nodup x hx
  have hlast : (x.1.arcs.getLast hp).finish = v := isWalk_last _ hp _ _ hv.2
  have hend : ∀ u, g.Walk x.1.arcs s0 u → u = (x.1.arcs.getLast hp).finish :=
    fun u hu => (isWalk_last _ hp _ _ hu.2).symm
  refine ⟨by rw [hlast]; exact hv, hxcost, hxnodup, ?_, fun e he => h.queue_ok e (hrest e he),
    fun e he => h.queue_nodup e (hrest e he), h.fixed_opt, h.finish_free, ?_, ?_, Or.inl hs0⟩
  · intro b hb
    have hsplit' : x.1.arcs.dropLast ++ [x.1.arcs.getLast hp] = x.1.arcs :=
      List.dropLast_append_getLast hp
    rw [← hsplit'] at hb
    rcases List.mem_append.mp hb with hb | hb
    · exact Or.inl (hxfixed b hb)
    · rw [List.mem_singleton] at hb
      exact Or.inr (by rw [hb])
  · intro hfree w hw
    simp only at hfree hw ⊢
    obtain ⟨w1, a, w2, hweq, hw1, hPa, hPb⟩ :=
      walk_crossing (fun n => containsKey st.fixed n.name = true) w _ _ hw.2 hs0
        (by simp [hfree])
    have ha : a ∈ g.arcs := hw.1 a (by rw [hweq]; simp)
    obtain ⟨d, hd⟩ := containsKey_exists hPa
    have hd1 : d ≤ arcsCost w1 :=
      h.fixed_opt _ d hd w1 ⟨fun b hb => hw.1 b (by rw [hweq]; simp [hb]), hw1⟩
    have hfree_b : containsKey st.fixed a.finish.name = false := by simpa using hPb
    have hw2 : 0 ≤ arcsCost w2 :=
      arcsCost_nonneg w2 (fun b hb => hnn b (hw.1 b (by rw [hweq]; simp [hb])))
    have hcw : arcsCost w = arcsCost w1 + (a.cost + arcsCost w2) := by
      rw [hweq, arcsCost_append, arcsCost_cons]
    rcases h.frontier a ha d hd hfree_b with heq | ⟨e, he, _, hle⟩
    · rw [heq, hstart] at hfree_b
      exact absurd hfree_b (by simp)
    · have h1 : x.2 ≤ d + a.cost := le_trans (hmin e he) hle
      rw [hxprio] at h1
      calc x.1.costs ≤ d + a.cost := h1
        _ ≤ arcsCost w1 + a.cost := add_le_add_right hd1 _
        _ ≤ arcsCost w1 + (a.cost + arcsCost w2) := by
            apply add_le_add_left
            exact le_add_of_nonneg_right hw2
        _ = arcsCost w := hcw.symm
  · intro a ha d had hfree
    rcases h.frontier a ha d had hfree with heq | ⟨e, he, hw, hle⟩
    · rw [heq, hstart] at hfree
      exact absurd hfree (by simp)
    · rcases hsplit e he with rfl | her
      · exact Or.inl (hend _ hw)
      · exact Or.inr ⟨e, her, hw, hle⟩

theorem loop_correct {fadd : K → K → K} {B : K} {g : Graph K} (hnn : g.NonNegative)
    (hexact : ExactUpTo fadd B) (hB : arcsCost g.arcs ≤ B) {deq : Dequeue (Path K) K}
    (hdeq : MinDequeue deq) {s0 finish : Node} (hreach : ∃ w, g.Walk w s0 finish) :
    ∀ (fuel : Nat) (st : SPState K) (p : Path K), SPInv g s0 finish st →
      findShortestPathLoop fadd g deq finish fuel st = some p →
      g.Walk p.arcs s0 finish ∧ p.costs = arcsCost p.arcs ∧
        ∀ w, g.Walk w s0 finish → p.costs ≤ arcsCost w := by
  intro fuel
  induction fuel with
  | zero =>
    intro st p h hres
    by_cases hfin : st.start = finish
    · rw [loop_of_eq fadd g deq finish _ st hfin] at hres
      simp only [Option.some.injEq] at hres
      subst hres
      refine ⟨by rw [← hfin]; exact h.path_walk, h.path_cost, ?_⟩
      intro w hw
      exact h.start_opt (by rw [hfin]; exact h.finish_free) w (by rw [hfin]; exact hw)
    · simp [findShortestPathLoop, hfin] at hres
  | succ fuel ih =>
    intro st p h hres
    by_cases hfin : st.start = finish
    · rw [loop_of_eq fadd g deq finish _ st hfin] at hres
      simp only [Option.some.injEq] at hres
      subst hres
      refine ⟨by rw [← hfin]; exact h.path_walk, h.path_cost, ?_⟩
      intro w hw
      exact h.start_opt (by rw [hfin]; exact h.finish_free) w (by rw [hfin]; exact hw)
    · obtain ⟨h1, hst1, hs0⟩ := spinv_relax hnn hexact hB h hfin
      by_cases hq : (relax fadd g st).queue = []
      · exfalso
        obtain ⟨w0, hw0⟩ := hreach
        obtain ⟨w1, a, w2, hweq, _, hPa, hPb⟩ :=
          walk_crossing (fun n => containsKey (relax fadd g st).fixed n.name = true) w0 _ _
            hw0.2 hs0 (by simp [h1.finish_free])
        have ha : a ∈ g.arcs := hw0.1 a (by rw [hweq]; simp)
        obtain ⟨d, hd⟩ := containsKey_exists hPa
        have hfree_b : containsKey (relax fadd g st).fixed a.finish.name = false := by
          simpa using hPb
        rcases h1.frontier a ha d hd hfree_b with heq | ⟨e, he, _⟩
        · rw [heq, hst1] at hfree_b
          exact absurd hfree_b (by simp)
        · rw [hq] at he
          simp at he
      · obtain ⟨x, rest, hd, hperm, hx, _, hmin, hsplit⟩ := hdeq.mem_of_deq hq
        have hp : x.1.arcs ≠ [] := (h1.queue_ok x hx).1
        rw [loop_of_deq fadd g deq finish fuel st hfin hq x.1 rest hd hp] at hres
        exact ih _ p (spinv_dequeue hnn h1 hst1 hs0 hx hmin hsplit
          (fun y hy => hperm.subset (List.mem_cons_of_mem _ hy)) hp) hres

/-- C1, as amended: on a graph whose arc costs are all non-negative, when the additions of
costs made by `Path::add` are exact on non-negative values up to a bound `B` and the costs of
all the arcs of the graph sum to at most `B`, with a priority queue whose `dequeue` removes
an entry of least priority, and for nodes `start` and `finish` such that `finish` is
reachable from `start`, `findShortestPath(start, finish)` returns a `Path` whose arcs form a
walk of the graph from `start` to `finish`, whose `totalCost()` is the cost of that walk, and
whose `totalCost()` is at most the cost of every walk from `start` to `finish`: it is the
minimum over all such walks. -/
theorem findShortestPath_optimal (fadd : K → K → K) (B : K) (g : Graph K)
    (hnn : g.NonNegative) (hexact : ExactUpTo fadd B) (hB : arcsCost g.arcs ≤ B)
    (deq : Dequeue (Path K) K) (hdeq : MinDequeue deq) (start finish : Node)
    (hreach : ∃ w, g.Walk w start finish) :
    ∃ p, findShortestPath fadd g deq start finish = some p ∧
      g.Walk p.arcs start finish ∧ p.totalCost = arcsCost p.arcs ∧
      ∀ w, g.Walk w start finish → p.totalCost ≤ arcsCost w := by
  obtain ⟨p, hp⟩ := findShortestPath_returns fadd g deq hdeq start finish
  exact ⟨p, hp,
    loop_correct hnn hexact hB hdeq hreach _ _ p (spinv_init g hnn start finish) hp⟩

end Optimality

/-! ## The addition of doubles -/

theorem shiftCount_of_lt (fuel n : Nat) (h : n < 2 ^ 53) : shiftCount fuel n = 0 := by
  cases fuel with
  | zero => rfl
  | succ fuel =>
    unfold shiftCount
    rw [if_pos h]

theorem roundNat_of_le (n : Nat) (h : n ≤ 2 ^ 53) : roundNat n = n := by
  rcases Nat.lt_or_eq_of_le h with hlt | heq
  · unfold roundNat
    rw [shiftCount_of_lt 1100 n hlt]
    simp [Nat.mod_one]
  · subst heq
    decide

/-- The addition of doubles is exact on non-negative integers whose sum is at most 2^53. -/
theorem doubleAdd_exact : ExactUpTo doubleAdd (2 ^ 53) := by
  intro x y hx hy hxy
  have hs : 0 ≤ x + y := add_nonneg hx hy
  unfold doubleAdd roundDouble
  rw [if_pos hs]
  have hn : (x + y).toNat ≤ 2 ^ 53 := by
    have : ((x + y).toNat : ℤ) ≤ ((2 ^ 53 : Nat) : ℤ) := by
      rw [Int.toNat_of_nonneg hs]
      exact_mod_cast hxy
    exact_mod_cast this
  rw [roundNat_of_le _ hn, Int.toNat_of_nonneg hs]

/-- The exact addition is exact. -/
theorem exactAdd_exact {K : Type} [LinearOrderedAddCommGroup K] (B : K) :
    ExactUpTo (exactAdd : K → K → K) B :=
  fun _ _ _ _ _ => rfl

theorem triangle_nonNegative : triangle.NonNegative := by
  unfold Graph.NonNegative
  decide

/-- Witness of `findShortestPath_optimal`: from A to C in the triangle A-B (1), B-C (1),
A-C (5), with the addition of doubles, which is exact up to 2^53: the path returned is
A -> B -> C, of cost 2. -/
theorem findShortestPath_optimal_witness :
    triangle.NonNegative ∧ ExactUpTo doubleAdd (2 ^ 53) ∧ arcsCost triangle.arcs ≤ 2 ^ 53 ∧
    MinDequeue (dequeueFifo : Dequeue (Path ℤ) ℤ) ∧
    (∃ w, triangle.Walk w nA nC) ∧
    (findShortestPath doubleAdd triangle dequeueFifo nA nC).map
      (fun p => (p.arcs, p.totalCost)) = some ([⟨nA, nB, 1⟩, ⟨nB, nC, 1⟩], 2) ∧
    ∃ p, findShortestPath doubleAdd triangle dequeueFifo nA nC = some p ∧
      triangle.Walk p.arcs nA nC ∧ p.totalCost = arcsCost p.arcs ∧
      ∀ w, triangle.Walk w nA nC → p.totalCost ≤ arcsCost w :=
  ⟨triangle_nonNegative, doubleAdd_exact, by decide, minDequeue_dequeueFifo,
    ⟨[⟨nA, nC, 5⟩], by decide, rfl, rfl⟩, by decide,
    findShortestPath_optimal doubleAdd (2 ^ 53) triangle triangle_nonNegative doubleAdd_exact
      (by decide) dequeueFifo minDequeue_dequeueFifo nA nC ⟨[⟨nA, nC, 5⟩], by decide, rfl, rfl⟩⟩

theorem roundingGraph_nonNegative : roundingGraph.NonNegative := by
  unfold Graph.NonNegative
  decide

theorem roundingDist_arc : ∀ a ∈ roundingGraph.arcs,
    roundingDist a.finish ≤ roundingDist a.start + a.cost := by
  decide

/-- No walk of `roundingGraph` is cheaper than the difference of the distances of its two
ends. -/
theorem roundingDist_walk (w : List (Arc ℤ)) :
    ∀ u v, roundingGraph.Walk w u v → roundingDist v ≤ roundingDist u + arcsCost w := by
  induction w with
  | nil =>
    intro u v h
    rw [show u = v from h.2, arcsCost_nil, add_zero]
  | cons a w ih =>
    intro u v h
    obtain ⟨hmem, hstart, hrest⟩ := h
    have h1 := ih a.finish v ⟨fun b hb => hmem b (List.mem_cons_of_mem _ hb), hrest⟩
    have h2 := roundingDist_arc a (hmem a (List.mem_cons_self _ _))
    rw [hstart] at h2
    rw [arcsCost_cons]
    linarith

/-- C1, the counterexample: the graph A-B (2^53), B-C (1), C-D (1), D-E (1), A-E (2^53 + 2)
has non-negative costs, all of them doubles, and E is reachable from A. With the addition of
doubles, `findShortestPath(A, E)` returns the path A -> B -> C -> D -> E with `totalCost()`
2^53. That path costs 2^53 + 3, the arc A -> E alone costs 2^53 + 2, and no walk from A to E
costs less than 2^53 + 2: the total cost returned is the cost of no walk from A to E, so it
is not the minimum over these walks, and the path returned is not a cheapest one. -/
theorem findShortestPath_rounding_not_optimal :
    roundingGraph.NonNegative ∧ MinDequeue (dequeueFifo : Dequeue (Path ℤ) ℤ) ∧
    roundingGraph.Walk [⟨nA, nE, 2 ^ 53 + 2⟩] nA nE ∧
    arcsCost ([⟨nA, nE, 2 ^ 53 + 2⟩] : List (Arc ℤ)) = 2 ^ 53 + 2 ∧
    (findShortestPath doubleAdd roundingGraph dequeueFifo nA nE).map
      (fun p => (p.arcs, p.totalCost, arcsCost p.arcs)) =
      some ([⟨nA, nB, 2 ^ 53⟩, ⟨nB, nC, 1⟩, ⟨nC, nD, 1⟩, ⟨nD, nE, 1⟩], 2 ^ 53, 2 ^ 53 + 3) ∧
    (∀ w, roundingGraph.Walk w nA nE → 2 ^ 53 + 2 ≤ arcsCost w) ∧
    ¬ ∃ p, findShortestPath doubleAdd roundingGraph dequeueFifo nA nE = some p ∧
      ∃ w, roundingGraph.Walk w nA nE ∧ p.totalCost = arcsCost w ∧
        ∀ w', roundingGraph.Walk w' nA nE → p.totalCost ≤ arcsCost w' := by
  have hres : (findShortestPath doubleAdd roundingGraph dequeueFifo nA nE).map
      (fun p => (p.arcs, p.totalCost, arcsCost p.arcs)) =
      some ([⟨nA, nB, 2 ^ 53⟩, ⟨nB, nC, 1⟩, ⟨nC, nD, 1⟩, ⟨nD, nE, 1⟩], 2 ^ 53, 2 ^ 53 + 3) := by
    decide
  have hlow : ∀ w, roundingGraph.Walk w nA nE → 2 ^ 53 + 2 ≤ arcsCost w := by
    intro w hw
    have h := roundingDist_walk w nA nE hw
    have hA : roundingDist nA = 0 := by decide
    have hE : roundingDist nE = 2 ^ 53 + 2 := by decide
    rw [hA, hE, zero_add] at h
    exact h
  refine ⟨roundingGraph_nonNegative, minDequeue_dequeueFifo, ⟨by decide, rfl, rfl⟩,
    by decide, hres, hlow, ?_⟩
  rintro ⟨p, hp, w, hw, hcost, _⟩
  rw [hp] at hres
  simp only [Option.map_some', Option.some.injEq, Prod.mk.injEq] at hres
  have h1 : p.totalCost = 2 ^ 53 := hres.2.1
  have h2 := hlow w hw
  rw [← hcost, h1] at h2
  exact absurd h2 (by decide)

end Pathfinder

namespace Pathfinder

/-! ## Cycles and bridges -/

section Trails

variable {K : Type} [LinearOrderedAddCommGroup K]

theorem isUWalk_append (t1 t2 : List (Arc K × Bool)) :
    ∀ a b m, IsUWalk t1 a m → IsUWalk t2 m b → IsUWalk (t1 ++ t2) a b := by
  induction t1 with
  | nil =>
    intro a b m h1 h2
    rw [show a = m from h1]
    exact h2
  | cons s t1 ih =>
    intro a b m h1 h2
    exact ⟨h1.1, ih _ _ _ h1.2 h2⟩

/-- Every arc used by a sequence of steps from `a` has its start node joined to `a`. -/
theorem uwalk_mem_joined (R : List (Arc K)) (t : List (Arc K × Bool)) :
    ∀ a c, IsUWalk t a c → (∀ s ∈ t, s.1 ∈ R) → ∀ s ∈ t, Joined R a s.1.start := by
  induction t with
  | nil => intro a c _ _ s hs; simp at hs
  | cons x t ih =>
    intro a c hw hmem s hs
    obtain ⟨h1, h2⟩ := hw
    have hx : x.1 ∈ R := hmem x (List.mem_cons_self _ _)
    have hsrc : Joined R a x.1.start := by
      rw [← h1]
      unfold stepSrc
      cases x.2
      · simpa using (Joined.of_mem hx).symm
      · simpa using Joined.refl R x.1.start
    have hdst : Joined R a (stepDst x) := by
      refine hsrc.trans ?_
      unfold stepDst
      cases x.2
      · simpa using Joined.refl R x.1.start
      · simpa using Joined.of_mem hx
    rcases List.mem_cons.mp hs with rfl | hs'
    · exact hsrc
    · exact hdst.trans (ih _ _ h2 (fun y hy => hmem y (List.mem_cons_of_mem _ hy)) s hs')

/-- Nodes that are joined are joined by a sequence of steps that uses no arc more often than
it is there. -/
theorem exists_trail (R : List (Arc K)) :
    ∀ a b, Joined R a b →
      ∃ t : List (Arc K × Bool), (t.map Prod.fst).Subperm R ∧ IsUWalk t a b := by
  induction R with
  | nil =>
    intro a b h
    exact ⟨[], by simp, joined_nil.mp h⟩
  | cons f R ih =>
    intro a b h
    by_cases hR : Joined R a b
    · obtain ⟨t, ht1, ht2⟩ := ih a b hR
      exact ⟨t, List.Subperm.cons_right f ht1, ht2⟩
    · have key : ∀ (p q : Node) (dir : Bool), stepSrc (f, dir) = p → stepDst (f, dir) = q →
          Joined R a p → Joined R q b →
          ∃ t : List (Arc K × Bool), (t.map Prod.fst).Subperm (f :: R) ∧ IsUWalk t a b := by
        intro p q dir hp hq h1 h2
        obtain ⟨t1, hs1, hw1⟩ := ih a p h1
        obtain ⟨t2, hs2, hw2⟩ := ih q b h2
        refine ⟨t1 ++ (f, dir) :: t2, ?_, isUWalk_append _ _ _ _ _ hw1 ⟨hp, by rw [hq]; exact hw2⟩⟩
        have hm1 : ∀ s ∈ t1, s.1 ∈ R := fun s hs => hs1.subset (List.mem_map_of_mem _ hs)
        have hm2 : ∀ s ∈ t2, s.1 ∈ R := fun s hs => hs2.subset (List.mem_map_of_mem _ hs)
        have hdisj : ∀ x, x ∈ t1.map Prod.fst → x ∈ t2.map Prod.fst → False := by
          intro x hx1 hx2
          obtain ⟨s1, hs1', rfl⟩ := List.mem_map.mp hx1
          obtain ⟨s2, hs2', heq⟩ := List.mem_map.mp hx2
          have j1 : Joined R a s1.1.start := uwalk_mem_joined R t1 _ _ hw1 hm1 s1 hs1'
          have j2 : Joined R q s2.1.start := uwalk_mem_joined R t2 _ _ hw2 hm2 s2 hs2'
          rw [heq] at j2
          exact hR (j1.trans (j2.symm.trans h2))
        have hsub : (t1.map Prod.fst ++ t2.map Prod.fst).Subperm R := by
          rw [List.subperm_ext_iff]
          intro x hx
          rw [List.count_append]
          rcases List.mem_append.mp hx with hx1 | hx2
          · have : List.count x (t2.map Prod.fst) = 0 :=
              List.count_eq_zero.mpr (fun hx2 => hdisj x hx1 hx2)
            rw [this, add_zero]
            exact hs1.count_le x
          · have : List.count x (t1.map Prod.fst) = 0 :=
              List.count_eq_zero.mpr (fun hx1 => hdisj x hx1 hx2)
            rw [this, zero_add]
            exact hs2.count_le x
        have hperm : List.Perm ((t1 ++ (f, dir) :: t2).map Prod.fst)
            (f :: (t1.map Prod.fst ++ t2.map Prod.fst)) := by
          simp only [List.map_append, List.map_cons]
          exact List.perm_middle
        exact List.Subperm.trans hperm.subperm ((List.subperm_cons f).mpr hsub)
      rcases joined_cons_of_not h hR with ⟨h1, h2⟩ | ⟨h1, h2⟩
      · exact key f.start f.finish true rfl rfl h1 h2
      · exact key f.finish f.start false rfl rfl h1 h2

/-- In a set of arcs without a cycle every arc is a bridge. -/
theorem allBridges_of_acyclic {L : List (Arc K)} (h : Acyclic L) : AllBridges L := by
  intro e R hperm hjoin
  obtain ⟨t, hs, hw⟩ := exists_trail R _ _ hjoin.symm
  apply h
  refine ⟨(e, true) :: t, e.start, by simp, ?_, ⟨rfl, hw⟩⟩
  simp only [List.map_cons]
  exact List.Subperm.trans ((List.subperm_cons e).mpr hs) hperm.symm.subperm

/-- The absence of cycles is the property that every arc is a bridge. -/
theorem acyclic_iff_allBridges (L : List (Arc K)) : Acyclic L ↔ AllBridges L :=
  ⟨allBridges_of_acyclic, acyclic_of_allBridges⟩

end Trails

end Pathfinder

namespace Pathfinder

/-! ## The Kruskal loop: minimality -/

section Minimality

variable {K : Type} [LinearOrderedAddCommGroup K]

theorem Spans.of_perm {g : Graph K} {T T' : List (Arc K)} (h : Spans g T)
    (hp : List.Perm T T') : Spans g T' :=
  ⟨List.Subperm.trans hp.symm.subperm h.1, AllBridges.subperm h.2.1 hp.symm.subperm,
    fun a ha => Joined.perm hp (h.2.2 a ha)⟩

/-- The arc to be exchanged: when `u` and `v` are joined by `F ++ D` and not by `F`, some arc
of `D` lies between them. -/
theorem exchange_find (F : List (Arc K)) {u v : Node} (hF : ¬ Joined F u v) (D : List (Arc K)) :
    Joined (F ++ D) u v →
      ∃ e ∈ D,
        (Joined (F ++ D.erase e) u e.start ∧ Joined (F ++ D.erase e) e.finish v) ∨
        (Joined (F ++ D.erase e) u e.finish ∧ Joined (F ++ D.erase e) e.start v) := by
  induction D with
  | nil =>
    intro h
    rw [List.append_nil] at h
    exact absurd h hF
  | cons d D ih =>
    intro h
    have hperm : List.Perm (F ++ d :: D) (d :: (F ++ D)) := List.perm_middle
    have h' : Joined (d :: (F ++ D)) u v := Joined.perm hperm h
    by_cases hD : Joined (F ++ D) u v
    · obtain ⟨e, he, hcase⟩ := ih hD
      have hsub : ∀ x ∈ F ++ D.erase e, x ∈ F ++ (d :: D).erase e := by
        intro x hx
        rcases List.mem_append.mp hx with hx | hx
        · exact List.mem_append_left _ hx
        · apply List.mem_append_right
          by_cases hde : d = e
          · subst hde
            rw [List.erase_cons_head]
            exact List.mem_of_mem_erase hx
          · rw [List.erase_cons_tail (by simpa using hde)]
            exact List.mem_cons_of_mem _ hx
      refine ⟨e, List.mem_cons_of_mem _ he, ?_⟩
      rcases hcase with ⟨h1, h2⟩ | ⟨h1, h2⟩
      · exact Or.inl ⟨Joined.mono hsub h1, Joined.mono hsub h2⟩
      · exact Or.inr ⟨Joined.mono hsub h1, Joined.mono hsub h2⟩
    · refine ⟨d, List.mem_cons_self _ _, ?_⟩
      rw [List.erase_cons_head]
      exact joined_cons_of_not h' hD

/-- The exchange step: an arc of least cost among those still queued, whose ends are not
joined yet, can be added to the arcs selected so far. -/
theorem extends_cons {g : Graph K} {st : KruskalState K} (h : KInv g st)
    (hext : Extends g st.minSpanTree) {x : Arc K × K} (hx : x ∈ st.queue)
    (hmin : ∀ y ∈ st.queue, x.2 ≤ y.2)
    (hnot : ¬ Joined st.minSpanTree x.1.start x.1.finish) :
    Extends g (x.1 :: st.minSpanTree) := by
  intro T hT
  obtain ⟨D, hD, hcost⟩ := hext T hT
  have hxq : x.1 ∈ st.queue.map Prod.fst := List.mem_map_of_mem _ hx
  have harc : x.1 ∈ g.arcs := h.subperm.subset (List.mem_append_right _ hxq)
  by_cases hxD : x.1 ∈ D
  · -- the arc belongs to the forest already
    have hperm : List.Perm (st.minSpanTree ++ D) (x.1 :: st.minSpanTree ++ D.erase x.1) := by
      have h1 : List.Perm D (x.1 :: D.erase x.1) := List.perm_cons_erase hxD
      exact (List.Perm.append_left _ h1).trans List.perm_middle
    exact ⟨D.erase x.1, hD.of_perm hperm, by rw [← arcsCost_perm hperm]; exact hcost⟩
  · -- exchange with an arc of the forest
    have hjoin : Joined (st.minSpanTree ++ D) x.1.start x.1.finish := hD.2.2 x.1 harc
    obtain ⟨e, heD, hcase⟩ := exchange_find st.minSpanTree hnot D hjoin
    set R := st.minSpanTree ++ D.erase e with hR
    have hpermT : List.Perm (st.minSpanTree ++ D) (e :: R) :=
      (List.Perm.append_left _ (List.perm_cons_erase heD)).trans List.perm_middle
    have hbridge : ¬ Joined R e.start e.finish := hD.2.1 e R hpermT
    have hRsub : R.Subperm (st.minSpanTree ++ D) :=
      List.Subperm.trans List.Subperm.cons_self hpermT.symm.subperm
    have heg : e ∈ g.arcs := hD.1.subset (List.mem_append_right _ heD)
    have hmstR : ∀ a ∈ st.minSpanTree, a ∈ R := fun a ha => List.mem_append_left _ ha
    have hecost : x.1.cost ≤ e.cost := by
      rcases h.processed e heg with hq | hj
      · obtain ⟨y, hy, rfl⟩ := List.mem_map.mp hq
        have := hmin y hy
        rw [h.prio x hx, h.prio y hy] at this
        exact this
      · exact absurd (Joined.mono hmstR hj) hbridge
    have hxR : ¬ Joined R x.1.start x.1.finish := by
      intro hj
      rcases hcase with ⟨h1, h2⟩ | ⟨h1, h2⟩
      · exact hbridge (h1.symm.trans (hj.trans h2.symm))
      · exact hbridge (h2.trans (hj.symm.trans h1))
    have hee : Joined (x.1 :: R) e.start e.finish := by
      have hx' : Joined (x.1 :: R) x.1.start x.1.finish := Joined.of_mem (List.mem_cons_self _ _)
      rcases hcase with ⟨h1, h2⟩ | ⟨h1, h2⟩
      · exact (Joined.cons _ h1).symm.trans (hx'.trans (Joined.cons _ h2).symm)
      · exact (Joined.cons _ h2).trans (hx'.symm.trans (Joined.cons _ h1))
    have hcount : List.count x.1 R < List.count x.1 g.arcs := by
      have h1 : List.count x.1 (D.erase e) = 0 :=
        List.count_eq_zero.mpr (fun hm => hxD (List.mem_of_mem_erase hm))
      have h2 := h.subperm.count_le x.1
      have h3 : 0 < List.count x.1 (st.queue.map Prod.fst) := List.count_pos_iff.mpr hxq
      rw [List.count_append] at h2
      rw [hR, List.count_append, h1]
      omega
    have hspans : Spans g (x.1 :: R) := by
      refine ⟨List.Subperm.cons_left (List.Subperm.trans hRsub hD.1) x.1 hcount,
        allBridges_cons (AllBridges.subperm hD.2.1 hRsub) hxR, ?_⟩
      intro a ha
      refine joined_of_forall ?_ (Joined.perm hpermT (hD.2.2 a ha))
      intro f hf
      rcases List.mem_cons.mp hf with rfl | hfR
      · exact hee
      · exact Joined.of_mem (List.mem_cons_of_mem _ hfR)
    refine ⟨D.erase e, hspans, le_trans ?_ hcost⟩
    rw [arcsCost_perm hpermT]
    show arcsCost (x.1 :: R) ≤ arcsCost (e :: R)
    rw [arcsCost_cons, arcsCost_cons]
    exact add_le_add_right hecost _

/-- What an iteration does to `minSpanTree`: nothing, or it adds the dequeued arc, whose ends
were not joined. -/
theorem kruskalStep_mst {g : Graph K} {st : KruskalState K} (hg : g.WellFormed)
    (h : KInv g st) {arc : Arc K} (harc : arc ∈ g.arcs) (rest : PriorityQueue (Arc K) K) :
    (kruskalStep { st with queue := rest } arc).minSpanTree = st.minSpanTree ∨
      ((kruskalStep { st with queue := rest } arc).minSpanTree = arc :: st.minSpanTree ∧
        ¬ Joined st.minSpanTree arc.start arc.finish) := by
  obtain ⟨i, j, hi, hj, hidx, hsi, hfj⟩ := scan_arc hg h harc
  by_cases hij : i = j
  · left
    unfold kruskalStep
    simp [hidx, hij]
  · right
    constructor
    · unfold kruskalStep
      simp [hidx, hij]
    · intro hjoin
      have : arc.finish ∈ st.connectedNodeSet[i] :=
        (h.classes _ (List.getElem_mem _) _ hsi _).mpr hjoin
      exact hij (disjoint_index_unique h.disjoint hi hj this hfj)

theorem kruskalReach_extends {g : Graph K} (hg : g.WellFormed) {deq : Dequeue (Arc K) K}
    (hdeq : MinDequeue deq) {st : KruskalState K} (h : KruskalReach g deq st) :
    Extends g st.minSpanTree := by
  induction h with
  | init =>
    intro T hT
    exact ⟨T, by rw [kruskalInit_mst]; exact hT, by rw [kruskalInit_mst]; exact le_refl _⟩
  | step st arc queue hreach hne hd ih =>
    have hinv := kruskalReach_inv hg hdeq hreach
    have hq : st.queue ≠ [] := by
      intro h0
      rw [h0] at hne
      simp at hne
    obtain ⟨x, rest, hx, _, hxmem, _, hmin, _⟩ := hdeq.mem_of_deq hq
    rw [hd] at hx
    simp only [Option.some.injEq, Prod.mk.injEq] at hx
    obtain ⟨rfl, rfl⟩ := hx
    have harc : x.1 ∈ g.arcs :=
      hinv.subperm.subset (List.mem_append_right _ (List.mem_map_of_mem _ hxmem))
    rcases kruskalStep_mst hg hinv harc queue with heq | ⟨heq, hnot⟩
    · rw [heq]; exact ih
    · rw [heq]; exact extends_cons hinv ih hxmem hmin hnot

/-- A spanning tree of a well-formed graph is a spanning forest in the sense of `Spans`. -/
theorem spans_of_isSpanningTree {g : Graph K} (hg : g.WellFormed) {T : List (Arc K)}
    (hT : IsSpanningTree g T) : Spans g T :=
  ⟨hT.1, allBridges_of_acyclic hT.2.1,
    fun a ha => hT.2.2 _ (hg.2 a ha).1 _ (hg.2 a ha).2⟩

/-- C5: on a connected well-formed graph, with a priority queue that dequeues arcs in
ascending order of cost (ties in any order), the Kruskal loop ends, `minSpanTree` is then a
spanning tree of the graph, and the sum of the costs of its arcs is at most the sum of the
costs of the arcs of every spanning tree of the graph: it is the minimum over all spanning
trees. -/
theorem kruskal_minimum (g : Graph K) (hg : g.WellFormed) (hconn : g.Connected)
    (deq : Dequeue (Arc K) K) (hdeq : MinDequeue deq) :
    ∃ st, kruskal g deq = some st ∧ IsSpanningTree g st.minSpanTree ∧
      ∀ T, IsSpanningTree g T → arcsCost st.minSpanTree ≤ arcsCost T := by
  obtain ⟨st, hres, hreach, h, hq⟩ := kruskal_result g hg hdeq
  refine ⟨st, hres, ⟨?_, acyclic_of_allBridges h.bridges, ?_⟩, ?_⟩
  · exact List.Subperm.trans (List.sublist_append_left _ _).subperm h.subperm
  · intro u hu v hv
    exact (kinv_final_joined h hq u v).mpr (hconn u hu v hv)
  · intro T hT
    obtain ⟨D, hD, hcost⟩ := kruskalReach_extends hg hdeq hreach T (spans_of_isSpanningTree hg hT)
    have hDnil : D = [] := by
      cases D with
      | nil => rfl
      | cons d D =>
        exfalso
        have hperm : List.Perm (st.minSpanTree ++ d :: D) (d :: (st.minSpanTree ++ D)) :=
          List.perm_middle
        apply hD.2.1 d _ hperm
        have hdg : d ∈ g.arcs := hD.1.subset (by simp)
        rcases h.processed d hdg with h1 | h1
        · rw [hq] at h1; simp at h1
        · exact Joined.mono (fun a ha => List.mem_append_left _ ha) h1
    rw [hDnil, List.append_nil] at hcost
    exact hcost

end Minimality

/-- Witness of `kruskal_minimum`: the triangle A-B (1), B-C (1), A-C (5), where the arcs
selected cost 2. -/
theorem kruskal_minimum_witness :
    triangle.WellFormed ∧ triangle.Connected ∧ MinDequeue (dequeueFifo : Dequeue (Arc ℤ) ℤ) ∧
    (kruskal triangle dequeueFifo).map (fun st => arcsCost st.minSpanTree) = some 2 ∧
    ∃ st, kruskal triangle dequeueFifo = some st ∧ IsSpanningTree triangle st.minSpanTree ∧
      ∀ T, IsSpanningTree triangle T → arcsCost st.minSpanTree ≤ arcsCost T :=
  ⟨triangle_wellFormed, triangle_connected, minDequeue_dequeueFifo, by decide,
    kruskal_minimum triangle triangle_wellFormed triangle_connected dequeueFifo
      minDequeue_dequeueFifo⟩

end Pathfinder

namespace Pathfinder

/-! ## Complements -/

section Complements

variable {K : Type} [LinearOrderedAddCommGroup K]

theorem spwalk_relax (fadd : K → K → K) {g : Graph K} {s0 : Node} {st : SPState K}
    (h : SPWalkInv g s0 st) : SPWalkInv g s0 (relax fadd g st) := by
  by_cases hf : containsKey st.fixed st.start.name = true
  · rw [relax_of_fixed fadd g st hf]; exact h
  · rw [relax_of_not_fixed fadd g st (by simpa using hf)]
    refine ⟨h.path_walk, ?_⟩
    intro e he
    simp only [List.mem_append, List.mem_map, List.mem_filter] at he
    rcases he with he | ⟨a, ⟨ha, _⟩, rfl⟩
    · exact h.queue_walk e he
    · have ha' : a ∈ g.arcs ∧ a.start = st.start := by
        unfold Node.arcs at ha
        simpa using ha
      refine ⟨by simp [Path.add], a.finish, ?_, ?_⟩
      · intro b hb
        rw [Path.add_arcs, List.mem_append, List.mem_singleton] at hb
        rcases hb with hb | rfl
        · exact h.path_walk.1 b hb
        · exact ha'.1
      · rw [Path.add_arcs, isWalk_snoc, ha'.2]
        exact ⟨h.path_walk.2, rfl⟩

theorem loop_walk (fadd : K → K → K) {g : Graph K} {deq : Dequeue (Path K) K}
    (hdeq : MinDequeue deq) {s0 finish : Node} :
    ∀ (fuel : Nat) (st : SPState K) (p : Path K), SPWalkInv g s0 st →
      findShortestPathLoop fadd g deq finish fuel st = some p → ∃ v, g.Walk p.arcs s0 v := by
  intro fuel
  induction fuel with
  | zero =>
    intro st p h hres
    by_cases hfin : st.start = finish
    · rw [loop_of_eq fadd g deq finish _ st hfin] at hres
      simp only [Option.some.injEq] at hres
      subst hres
      exact ⟨_, h.path_walk⟩
    · simp [findShortestPathLoop, hfin] at hres
  | succ fuel ih =>
    intro st p h hres
    by_cases hfin : st.start = finish
    · rw [loop_of_eq fadd g deq finish _ st hfin] at hres
      simp only [Option.some.injEq] at hres
      subst hres
      exact ⟨_, h.path_walk⟩
    · have h1 := spwalk_relax fadd h
      by_cases hq : (relax fadd g st).queue = []
      · rw [loop_of_empty fadd g deq finish fuel st hfin hq] at hres
        simp only [Option.some.injEq] at hres
        subst hres
        exact ⟨_, h1.path_walk⟩
      · obtain ⟨x, rest, hd, hperm, hx, _, _, _⟩ := hdeq.mem_of_deq hq
        obtain ⟨hp, v, hv⟩ := h1.queue_walk x hx
        rw [loop_of_deq fadd g deq finish fuel st hfin hq x.1 rest hd hp] at hres
        refine ih _ p ⟨?_, ?_⟩ hres
        · show g.Walk x.1.arcs s0 (x.1.arcs.getLast hp).finish
          rw [isWalk_last _ hp _ _ hv.2]
          exact hv
        · intro e he
          exact h1.queue_walk e (hperm.subset (List.mem_cons_of_mem _ he))

/-- Whatever the graph and the two nodes are, the path returned by `findShortestPath` is a
walk of the graph that starts at `start`: its arcs are arcs of the graph, the first one
starts at `start` and each one starts where the previous one finishes. Where it ends is not
said: it need not be `finish` when `finish` is unreachable. -/
theorem findShortestPath_walk (fadd : K → K → K) (g : Graph K) (deq : Dequeue (Path K) K)
    (hdeq : MinDequeue deq) (start finish : Node) (p : Path K)
    (h : findShortestPath fadd g deq start finish = some p) :
    ∃ v, g.Walk p.arcs start v := by
  have hinit : SPWalkInv g start
      { start := start, path := Path.empty, queue := [], fixed := [] } :=
    ⟨⟨by simp [Path.empty], rfl⟩, by simp⟩
  exact loop_walk fadd hdeq _ _ p hinit h

/-- Every graph has a list with one node of each of its connected components. -/
theorem exists_componentReps (g : Graph K) : ∃ reps, IsComponentReps g reps := by
  have key : ∀ l : List Node, ∃ reps : List Node,
      (∀ r ∈ reps, r ∈ l) ∧ (∀ v ∈ l, ∃ r ∈ reps, Joined g.arcs r v) ∧
        reps.Pairwise (fun r s => ¬ Joined g.arcs r s) := by
    intro l
    induction l with
    | nil => exact ⟨[], by simp, by simp, List.Pairwise.nil⟩
    | cons n l ih =>
      obtain ⟨reps, h1, h2, h3⟩ := ih
      by_cases hn : ∃ r ∈ reps, Joined g.arcs r n
      · refine ⟨reps, fun r hr => List.mem_cons_of_mem _ (h1 r hr), ?_, h3⟩
        intro v hv
        rcases List.mem_cons.mp hv with rfl | hv
        · exact hn
        · exact h2 v hv
      · refine ⟨n :: reps, ?_, ?_, ?_⟩
        · intro r hr
          rcases List.mem_cons.mp hr with rfl | hr
          · exact List.mem_cons_self _ _
          · exact List.mem_cons_of_mem _ (h1 r hr)
        · intro v hv
          rcases List.mem_cons.mp hv with rfl | hv
          · exact ⟨v, List.mem_cons_self _ _, Joined.refl _ _⟩
          · obtain ⟨r, hr, hrv⟩ := h2 v hv
            exact ⟨r, List.mem_cons_of_mem _ hr, hrv⟩
        · refine List.pairwise_cons.mpr ⟨?_, h3⟩
          intro r hr hj
          exact hn ⟨r, hr, hj.symm⟩
  exact key g.nodes

end Complements

end Pathfinder
